import Mathlib

/-!
Verification of the boil-it module manager core against its specification.

The development shallowly embeds the core of `src/boilit.ts`, `src/cli.ts`,
`src/errors.ts` and `src/types.ts`:

* the configuration data model (`Module`, `DefaultCfg`, `BoilItConfig`)
  mirroring the zod schemas of `src/types.ts`, with the module mapping
  represented as an association list in object-key insertion order;
* configuration validation (`findDuplicates`, `validateModule`,
  `detectCircularDependency`, `validateConfig`) from `src/boilit.ts`;
* pre-flight request validation (`validateRequestedModules`);
* the dependency resolver (`resolveDependencies`);
* the glob-to-regex compiler (`globToRegExp`) together with an executable
  model of the JavaScript regular-expression engine restricted to the
  constructs the compiler emits (a Brzozowski-derivative matcher);
* the file-selection engine (`collectFiles`, `copyToTarget`) over a model
  file-system tree;
* the reference-application pipeline and conflict sub-machine
  (`prepareRepoForModule`, `cherryPickWithConflictHandling`,
  `handleMergeConflict`) and the orchestrator (`use`, `handleUse`),
  with the external git service, prompt and file system modelled as a
  scripted environment, and thrown JavaScript errors modelled as values
  of an explicit error type.

Error values thrown by the source are modelled as structured constructors,
one per distinct error message template of the source.
-/

namespace BoilIt

/-- Mirror of `ModuleSchema` from `src/types.ts`: every field optional. -/
structure Module where
  description : Option String := none
  origin : Option String := none
  refs : Option (List String) := none
  dependencies : Option (List String) := none
  path : Option String := none
  files : Option (List String) := none
  ignore : Option (List String) := none
deriving DecidableEq

/-- Mirror of `DefaultSchema` from `src/types.ts` (`origin` required). -/
structure DefaultCfg where
  origin : String
  files : Option (List String) := none
  ignore : Option (List String) := none
deriving DecidableEq

/-- Mirror of `BoilItConfigSchema` from `src/types.ts`.  The `modules`
record is modelled as an association list in key insertion order (keys of
a JavaScript object parsed from TOML).  The source field name `default`
is rendered `defaultCfg`. -/
structure BoilItConfig where
  name : String
  description : Option String := none
  modules : List (String × Module)
  defaultCfg : Option DefaultCfg := none
deriving DecidableEq

/-- JavaScript object property access `config.modules[name]`. -/
def lookupMod (mods : List (String × Module)) (n : String) : Option Module :=
  (mods.find? (fun p => p.1 == n)).map (fun p => p.2)

/-- The list of declared module names, `Object.keys(config.modules)`. -/
def namesOf (mods : List (String × Module)) : List String :=
  mods.map (fun p => p.1)

/-- Structured counterpart of the distinct error messages thrown by
`validateConfig` / `validateModule` in `src/boilit.ts`. -/
inductive CfgError
  | duplicateModules (dups : List String)
  | invalidDependency (moduleName dep : String) (available : List String)
  | selfDependency (moduleName : String)
  | circularDependency (cycle : List String) (moduleName : String)
  | emptyRefs (moduleName : String)
  | emptyFiles (moduleName : String)
  | emptyDependencies (moduleName : String)
deriving DecidableEq

/-- The per-dependency loop at the top of `validateModule`
(`src/boilit.ts` lines 317-332): for each declared dependency, first the
existence check, then the self-dependency check. -/
def checkDepList (moduleName : String) (allModuleNames : List String) :
    List String → Except CfgError Unit
  | [] => .ok ()
  | dep :: rest =>
    if ¬ allModuleNames.contains dep then
      .error (.invalidDependency moduleName dep allModuleNames)
    else if dep == moduleName then
      .error (.selfDependency moduleName)
    else
      checkDepList moduleName allModuleNames rest

/-- One pass over the dependency list of one node inside
`detectCircularDependency` (`src/boilit.ts` lines 394-402).  `rec` is the
recursive call at one unit of fuel less; `none` is fuel exhaustion,
`some none` means no cycle found, `some (some c)` a reported cycle. -/
def detectDepsAux (mods : List (String × Module))
    (rec : String → List String → Option (Option (List String))) :
    List String → Option (Option (List String))
  | [] => some none
  | d :: ds =>
    if (namesOf mods).contains d then
      match lookupMod mods d with
      | some md =>
        match md.dependencies with
        | some dds =>
          match rec d dds with
          | none => none
          | some (some c) => some (some c)
          | some none => detectDepsAux mods rec ds
        | none => detectDepsAux mods rec ds
      | none => detectDepsAux mods rec ds
    else
      detectDepsAux mods rec ds

/-- Fuelled embedding of `detectCircularDependency` (`src/boilit.ts`
lines 379-407).  In the source, `visited` and `path` are pushed and
popped in lockstep (and the recursion is in depth-first call order with
by-reference arguments restored on return), so a single `path` argument
models the pair: `visited.has(moduleName)` is membership in `path`.  The
source has no fuel; `detectF_ne_none` below shows fuel
`allModuleNames.length + 1` never runs out for the calls the validator
makes, so the `none` result is unreachable there. -/
def detectF (mods : List (String × Module)) :
    Nat → String → List String → List String → Option (Option (List String))
  | 0, _, _, _ => none
  | fuel + 1, moduleName, dependencies, path =>
    if path.contains moduleName then
      -- `path.indexOf(moduleName)` then `cycleStart >= 0 ? path.slice(cycleStart) : path`
      some (some (if path.indexOf moduleName < path.length then
        path.drop (path.indexOf moduleName) else path))
    else
      detectDepsAux mods
        (fun d dds => detectF mods fuel d dds (path ++ [moduleName])) dependencies

/-- Embedding of `detectCircularDependency` as called with the default
empty `visited`/`path` arguments. -/
def detectCircularDependency (mods : List (String × Module))
    (moduleName : String) (dependencies : List String)
    (allModuleNames : List String) : Option (List String) :=
  match detectF mods (allModuleNames.length + 1) moduleName dependencies [] with
  | some r => r
  | none => none

/-- The dependency block of `validateModule` (`src/boilit.ts` lines
317-341): per-dependency existence and self-dependency checks followed
by cycle detection.  In JavaScript an empty `dependencies` array is
truthy, so the block also runs for `some []`. -/
def checkDepBlock (mods : List (String × Module)) (moduleName : String)
    (module : Module) (allModuleNames : List String) : Except CfgError Unit :=
  match module.dependencies with
  | some deps =>
    match checkDepList moduleName allModuleNames deps with
    | .error e => .error e
    | .ok _ =>
      match detectCircularDependency mods moduleName deps allModuleNames with
      | some cycle => .error (.circularDependency cycle moduleName)
      | none => .ok ()
  | none => .ok ()

/-- The empty-array checks of `validateModule` (`src/boilit.ts` lines
343-362), in source order: `refs`, then `files`, then `dependencies`. -/
def checkEmptyArrays (moduleName : String) (module : Module) :
    Except CfgError Unit :=
  match module.refs with
  | some [] => .error (.emptyRefs moduleName)
  | _ =>
    match module.files with
    | some [] => .error (.emptyFiles moduleName)
    | _ =>
      match module.dependencies with
      | some [] => .error (.emptyDependencies moduleName)
      | _ => .ok ()

/-- Embedding of `validateModule` (`src/boilit.ts` lines 316-363): the
dependency block, then the empty-array checks, stopping at the first
thrown error. -/
def validateModule (mods : List (String × Module)) (moduleName : String)
    (module : Module) (allModuleNames : List String) : Except CfgError Unit :=
  match checkDepBlock mods moduleName module allModuleNames with
  | .error e => .error e
  | .ok _ => checkEmptyArrays moduleName module

/-- Embedding of `findDuplicates` (`src/boilit.ts` lines 365-377): `seen`
and `duplicates` are insertion-ordered sets; only first insertions extend
them. -/
def findDuplicatesGo : List String → List String → List String → List String
  | [], _, dups => dups
  | x :: xs, seen, dups =>
    if seen.contains x then
      (if dups.contains x then findDuplicatesGo xs seen dups
       else findDuplicatesGo xs seen (dups ++ [x]))
    else
      findDuplicatesGo xs (x :: seen) dups

/-- Embedding of `findDuplicates`. -/
def findDuplicates (array : List String) : List String :=
  findDuplicatesGo array [] []

/-- The `Object.entries` loop of `validateConfig` (`src/boilit.ts`
lines 311-313), stopping at the first thrown error. -/
def validateModulesGo (mods : List (String × Module))
    (allModuleNames : List String) : List (String × Module) → Except CfgError Unit
  | [] => .ok ()
  | (n, m) :: rest =>
    match validateModule mods n m allModuleNames with
    | .error e => .error e
    | .ok _ => validateModulesGo mods allModuleNames rest

/-- Embedding of `validateConfig` (`src/boilit.ts` lines 298-314). -/
def validateConfig (cfg : BoilItConfig) : Except CfgError Unit :=
  let moduleNames := namesOf cfg.modules
  let dups := findDuplicates moduleNames
  if dups.isEmpty then validateModulesGo cfg.modules moduleNames cfg.modules
  else .error (.duplicateModules dups)

/-- The two forms of the suggestion appended to the invalid-module error
message of `validateRequestedModules` (ternary at `src/boilit.ts`
lines 89-91). -/
inductive Suggestion
  | availableList (names : List String)
  | noModulesDefined
deriving DecidableEq

/-- Structured counterpart of the single error thrown by
`validateRequestedModules`, carrying every invalid requested name and the
suggestion. -/
inductive ReqErr
  | invalidRequested (invalid : List String) (suggestion : Suggestion)
deriving DecidableEq

/-- Embedding of `validateRequestedModules` (`src/boilit.ts` lines
76-98) for a loaded configuration (the `!this.config` early return is
the orchestrator-level null case, not reachable once a configuration is
loaded). -/
def validateRequestedModules (cfg : BoilItConfig)
    (requestedModules : List String) : Except ReqErr Unit :=
  let availableModules := namesOf cfg.modules
  let invalidModules :=
    requestedModules.filter (fun n => ! availableModules.contains n)
  if invalidModules.isEmpty then .ok ()
  else
    .error (.invalidRequested invalidModules
      (if availableModules.length > 0 then .availableList availableModules
       else .noModulesDefined))

/-- One pass over a dependency list inside `resolveDependencies`
(`src/boilit.ts` lines 169-175): dependencies already in the resolved
set are skipped, the others are resolved recursively through `rec`. -/
def resolveDepsAux (rec : List String → String → List String) :
    List String → List String → List String
  | acc, [] => acc
  | acc, d :: ds =>
    resolveDepsAux rec (if acc.contains d then acc else rec acc d) ds

/-- Fuelled embedding of the inner `resolve` closure of
`resolveDependencies` (`src/boilit.ts` lines 165-178).  The
insertion-ordered set `resolved` is the accumulator list; `Set.add` of a
present element leaves the order unchanged, so it is modelled as a
conditional append.  The source recursion has no fuel and relies on the
configuration being acyclic; fuel `mods.length + 1` is shown sufficient
under that hypothesis. -/
def resolveGo (mods : List (String × Module)) :
    Nat → List String → String → List String
  | 0, acc, _ => acc
  | fuel + 1, acc, moduleName =>
    match lookupMod mods moduleName with
    | none => acc
    | some module =>
      let acc1 := resolveDepsAux (fun a d => resolveGo mods fuel a d)
        acc (module.dependencies.getD [])
      if acc1.contains moduleName then acc1 else acc1 ++ [moduleName]

/-- Embedding of `resolveDependencies` (`src/boilit.ts` lines 160-185),
including the `!this.config` early return. -/
def resolveDependencies (config : Option BoilItConfig)
    (moduleNames : List String) : List String :=
  match config with
  | none => []
  | some cfg =>
    moduleNames.foldl
      (fun acc n => resolveGo cfg.modules (cfg.modules.length + 1) acc n) []

/-! ### The declared dependency graph -/

/-- Dependency list of a module name as the resolver and the cycle
detector read it: `module.dependencies` behind an object lookup, with
absent modules or an absent field contributing nothing. -/
def depsOfStr (mods : List (String × Module)) (n : String) : List String :=
  match lookupMod mods n with
  | some m => m.dependencies.getD []
  | none => []

/-- Direct declared dependency edge: `b` is listed among the
dependencies of the module named `a`. -/
def Edge (mods : List (String × Module)) (a b : String) : Prop :=
  b ∈ depsOfStr mods a

instance (mods : List (String × Module)) (a b : String) :
    Decidable (Edge mods a b) :=
  inferInstanceAs (Decidable (b ∈ depsOfStr mods a))

/-- Direct or transitive declared dependency. -/
def DependsOn (mods : List (String × Module)) : String → String → Prop :=
  Relation.TransGen (Edge mods)

theorem lookupMod_none_iff (mods : List (String × Module)) (n : String) :
    lookupMod mods n = none ↔ n ∉ namesOf mods := by
  unfold lookupMod namesOf
  rw [Option.map_eq_none', List.find?_eq_none]
  constructor
  · intro h hc
    obtain ⟨p, hp, hpn⟩ := List.mem_map.1 hc
    exact absurd (by simpa using hpn) (by simpa using h p hp)
  · intro h p hp
    simp only [beq_iff_eq]
    intro hpn
    exact h (List.mem_map.2 ⟨p, hp, hpn⟩)

theorem lookupMod_some_mem (mods : List (String × Module)) (n : String)
    (m : Module) (h : lookupMod mods n = some m) :
    (n, m) ∈ mods ∧ n ∈ namesOf mods := by
  unfold lookupMod at h
  rw [Option.map_eq_some'] at h
  obtain ⟨p, hp, hpm⟩ := h
  have hmem := List.mem_of_find?_eq_some hp
  have hpred := List.find?_some hp
  simp only [beq_iff_eq] at hpred
  have : p = (n, m) := by
    cases p
    simp only at hpm hpred
    simp [hpm, hpred]
  subst this
  exact ⟨hmem, List.mem_map.2 ⟨(n, m), hmem, rfl⟩⟩

/-! ### Dependency resolution (claim C3) -/

/-- Lists in which every element is preceded by all of its declared
dependencies; every resolver accumulator has this shape. -/
inductive OrdClosed (mods : List (String × Module)) : List String → Prop
  | nil : OrdClosed mods []
  | snoc (l : List String) (x : String) : OrdClosed mods l →
      (∀ d ∈ depsOfStr mods x, d ∈ l) → OrdClosed mods (l ++ [x])

/-- Invariant of the resolver accumulator: no duplicates, only declared
names, dependencies before dependents. -/
def ResolvedInv (mods : List (String × Module)) (l : List String) : Prop :=
  l.Nodup ∧ (∀ x ∈ l, x ∈ namesOf mods) ∧ OrdClosed mods l

theorem resolveDepsAux_spec (mods : List (String × Module))
    (rec : List String → String → List String) (P : String → Prop)
    (hrec : ∀ acc d, ResolvedInv mods acc → P d →
      ResolvedInv mods (rec acc d) ∧ (∃ t, rec acc d = acc ++ t) ∧
        d ∈ rec acc d) :
    ∀ ds acc, (∀ d ∈ ds, P d) → ResolvedInv mods acc →
      ResolvedInv mods (resolveDepsAux rec acc ds) ∧
      (∃ t, resolveDepsAux rec acc ds = acc ++ t) ∧
      (∀ d ∈ ds, d ∈ resolveDepsAux rec acc ds) := by
  intro ds
  induction ds with
  | nil =>
    intro acc _ hInv
    exact ⟨hInv, ⟨[], by simp [resolveDepsAux]⟩, by simp⟩
  | cons d ds ih =>
    intro acc hP hInv
    unfold resolveDepsAux
    by_cases hd : acc.contains d
    · rw [if_pos hd]
      have step := ih acc (fun x hx => hP x (List.mem_cons_of_mem _ hx)) hInv
      refine ⟨step.1, step.2.1, ?_⟩
      intro x hx
      rcases List.mem_cons.1 hx with rfl | hx2
      · obtain ⟨t, ht⟩ := step.2.1
        rw [ht]
        exact List.mem_append_left t (by simpa using hd)
      · exact step.2.2 x hx2
    · rw [if_neg hd]
      have h1 := hrec acc d hInv (hP d (by simp))
      have step := ih (rec acc d)
        (fun x hx => hP x (List.mem_cons_of_mem _ hx)) h1.1
      refine ⟨step.1, ?_, ?_⟩
      · obtain ⟨t1, ht1⟩ := h1.2.1
        obtain ⟨t2, ht2⟩ := step.2.1
        exact ⟨t1 ++ t2, by rw [ht2, ht1, List.append_assoc]⟩
      · intro x hx
        rcases List.mem_cons.1 hx with rfl | hx2
        · obtain ⟨t2, ht2⟩ := step.2.1
          rw [ht2]
          exact List.mem_append_left t2 h1.2.2
        · exact step.2.2 x hx2

theorem resolveGo_spec (mods : List (String × Module)) (rank : String → Nat)
    (Hrank : ∀ p ∈ mods, ∀ d ∈ p.2.dependencies.getD [], rank d < rank p.1)
    (Hclosed : ∀ p ∈ mods, ∀ d ∈ p.2.dependencies.getD [],
      d ∈ namesOf mods) :
    ∀ fuel n acc, (n ∈ namesOf mods → rank n < fuel) →
      ResolvedInv mods acc →
      ResolvedInv mods (resolveGo mods fuel acc n) ∧
      (∃ t, resolveGo mods fuel acc n = acc ++ t) ∧
      (n ∈ namesOf mods → n ∈ resolveGo mods fuel acc n) := by
  intro fuel
  induction fuel with
  | zero =>
    intro n acc hn hInv
    refine ⟨hInv, ⟨[], by simp [resolveGo]⟩, ?_⟩
    intro hmem
    exact absurd (hn hmem) (by omega)
  | succ fuel ih =>
    intro n acc hn hInv
    unfold resolveGo
    rcases hl : lookupMod mods n with _ | m
    · simp only [hl]
      refine ⟨hInv, ⟨[], by simp⟩, ?_⟩
      intro hmem
      exact absurd hmem ((lookupMod_none_iff mods n).1 hl)
    · simp only [hl]
      have hpm := lookupMod_some_mem mods n m hl
      have hnn : n ∈ namesOf mods := hpm.2
      have hdeps : depsOfStr mods n = m.dependencies.getD [] := by
        simp [depsOfStr, hl]
      have hfold := resolveDepsAux_spec mods
        (fun a d => resolveGo mods fuel a d)
        (fun d => d ∈ namesOf mods ∧ rank d < fuel)
        (fun acc d hInv hP => by
          have h := ih d acc (fun _ => hP.2) hInv
          exact ⟨h.1, h.2.1, h.2.2 hP.1⟩)
        (m.dependencies.getD []) acc
        (fun d hd => ⟨Hclosed (n, m) hpm.1 d hd,
          lt_of_lt_of_le (Hrank (n, m) hpm.1 d hd)
            (Nat.lt_succ_iff.1 (hn hnn))⟩)
        hInv
      set acc1 := resolveDepsAux
        (fun a d => resolveGo mods fuel a d) acc (m.dependencies.getD []) with hacc1
      by_cases hmem : acc1.contains n
      · rw [if_pos hmem]
        exact ⟨hfold.1, hfold.2.1, fun _ => by simpa using hmem⟩
      · rw [if_neg hmem]
        have hnotmem : n ∉ acc1 := by simpa using hmem
        obtain ⟨hnd, hdecl, hord⟩ := hfold.1
        refine ⟨⟨?_, ?_, ?_⟩, ?_, fun _ => by simp⟩
        · simpa [List.nodup_append] using ⟨hnd, hnotmem⟩
        · intro x hx
          rcases List.mem_append.1 hx with hx1 | hx2
          · exact hdecl x hx1
          · simp only [List.mem_singleton] at hx2
            subst hx2
            exact hnn
        · refine OrdClosed.snoc acc1 n hord ?_
          intro d hd
          rw [hdeps] at hd
          exact hfold.2.2 d hd
        · obtain ⟨t, ht⟩ := hfold.2.1
          exact ⟨t ++ [n], by rw [ht, List.append_assoc]⟩

theorem ordClosed_edge_lt (mods : List (String × Module)) (l : List String)
    (h : OrdClosed mods l) (hnd : l.Nodup) :
    ∀ a b, a ∈ l → Edge mods a b →
      b ∈ l ∧ l.indexOf b < l.indexOf a := by
  induction h with
  | nil => intro a b ha _; cases ha
  | snoc l x hcl hdeps ih =>
    intro a b ha hab
    have hnd1 : l.Nodup := by
      simp only [List.nodup_append] at hnd
      exact hnd.1
    have hxl : x ∉ l := by
      simp only [List.nodup_append] at hnd
      intro hc
      exact hnd.2.2 hc (by simp)
    rcases List.mem_append.1 ha with ha1 | ha2
    · obtain ⟨hb, hlt⟩ := ih hnd1 a b ha1 hab
      refine ⟨List.mem_append_left _ hb, ?_⟩
      rw [List.indexOf_append_of_mem hb, List.indexOf_append_of_mem ha1]
      exact hlt
    · simp only [List.mem_singleton] at ha2
      subst ha2
      have hb : b ∈ l := hdeps b hab
      refine ⟨List.mem_append_left _ hb, ?_⟩
      rw [List.indexOf_append_of_mem hb,
        List.indexOf_append_of_not_mem hxl]
      simp only [List.indexOf_cons_self, Nat.add_zero]
      exact List.indexOf_lt_length.2 hb

theorem ordClosed_dependsOn_lt (mods : List (String × Module))
    (l : List String) (h : OrdClosed mods l) (hnd : l.Nodup)
    (a b : String) (ha : a ∈ l) (hdep : DependsOn mods a b) :
    b ∈ l ∧ l.indexOf b < l.indexOf a := by
  induction hdep with
  | single e => exact ordClosed_edge_lt mods l h hnd _ _ ha e
  | tail _ e ih =>
    obtain ⟨hb, hlt⟩ := ih
    obtain ⟨hc, hlt2⟩ := ordClosed_edge_lt mods l h hnd _ _ hb e
    exact ⟨hc, lt_trans hlt2 hlt⟩

theorem resolveFold_spec (mods : List (String × Module))
    (rank : String → Nat)
    (Hrank : ∀ p ∈ mods, ∀ d ∈ p.2.dependencies.getD [], rank d < rank p.1)
    (Hclosed : ∀ p ∈ mods, ∀ d ∈ p.2.dependencies.getD [],
      d ∈ namesOf mods)
    (Hbound : ∀ p ∈ mods, rank p.1 < mods.length + 1) :
    ∀ (names : List String) (acc : List String), ResolvedInv mods acc →
      ResolvedInv mods
        (names.foldl (fun a n => resolveGo mods (mods.length + 1) a n) acc) ∧
      (∃ t, names.foldl (fun a n => resolveGo mods (mods.length + 1) a n) acc
        = acc ++ t) ∧
      (∀ n ∈ names, n ∈ namesOf mods →
        n ∈ names.foldl (fun a n => resolveGo mods (mods.length + 1) a n) acc) := by
  intro names
  induction names with
  | nil =>
    intro acc hInv
    exact ⟨hInv, ⟨[], by simp⟩, by simp⟩
  | cons n ns ih =>
    intro acc hInv
    have hrankn : n ∈ namesOf mods → rank n < mods.length + 1 := by
      intro hmem
      obtain ⟨p, hp, hpn⟩ := List.mem_map.1 hmem
      exact hpn ▸ Hbound p hp
    have h1 := resolveGo_spec mods rank Hrank Hclosed (mods.length + 1)
      n acc hrankn hInv
    have h2 := ih (resolveGo mods (mods.length + 1) acc n) h1.1
    simp only [List.foldl_cons]
    refine ⟨h2.1, ?_, ?_⟩
    · obtain ⟨t1, ht1⟩ := h1.2.1
      obtain ⟨t2, ht2⟩ := h2.2.1
      exact ⟨t1 ++ t2, by rw [ht2, ht1, List.append_assoc]⟩
    · intro x hx hxd
      rcases List.mem_cons.1 hx with rfl | hx2
      · obtain ⟨t2, ht2⟩ := h2.2.1
        rw [ht2]
        exact List.mem_append_left t2 (h1.2.2 hxd)
      · exact h2.2.2 x hx2 hxd

/-- Configuration of the specification example: `A` with no
dependencies, `B` depending on `A`, `C` depending on `A` and `B`. -/
def abcCfg : BoilItConfig :=
  { name := "Repo",
    modules :=
      [("A", ({} : Module)),
       ("B", ({ dependencies := some ["A"] } : Module)),
       ("C", ({ dependencies := some ["A", "B"] } : Module))] }

/-- C3: for a validated (acyclic, dependency-closed) configuration the
resolver output has no duplicates, contains every requested declared
name and (with the ordering conjunct) all of its transitive
dependencies, places every dependency strictly before each dependent,
contains only declared names (silently skipping requested names absent
from the configuration), and on the concrete A/B/C example resolving
`[C]` yields exactly `[A, B, C]`.  Acyclicity of the validated graph is
expressed by a rank function decreasing along declared edges and bounded
by the number of modules. -/
theorem C3_resolver_dependency_order (cfg : BoilItConfig)
    (names : List String) (rank : String → Nat)
    (Hrank : ∀ p ∈ cfg.modules, ∀ d ∈ p.2.dependencies.getD [],
      rank d < rank p.1)
    (Hclosed : ∀ p ∈ cfg.modules, ∀ d ∈ p.2.dependencies.getD [],
      d ∈ namesOf cfg.modules)
    (Hbound : ∀ p ∈ cfg.modules, rank p.1 < cfg.modules.length + 1) :
    (resolveDependencies (some cfg) names).Nodup ∧
    (∀ n ∈ names, n ∈ namesOf cfg.modules →
      n ∈ resolveDependencies (some cfg) names) ∧
    (∀ a b, a ∈ resolveDependencies (some cfg) names →
      DependsOn cfg.modules a b →
      b ∈ resolveDependencies (some cfg) names ∧
      (resolveDependencies (some cfg) names).indexOf b <
        (resolveDependencies (some cfg) names).indexOf a) ∧
    (∀ x ∈ resolveDependencies (some cfg) names, x ∈ namesOf cfg.modules) ∧
    resolveDependencies (some abcCfg) ["C"] = ["A", "B", "C"] := by
  have h := resolveFold_spec cfg.modules rank Hrank Hclosed Hbound names []
    ⟨List.nodup_nil, by simp, OrdClosed.nil⟩
  have hout : resolveDependencies (some cfg) names =
      names.foldl (fun a n => resolveGo cfg.modules (cfg.modules.length + 1) a n) [] := by
    rfl
  rw [hout]
  obtain ⟨⟨hnd, hdecl, hord⟩, _, hmem⟩ := h
  refine ⟨hnd, fun n hn hnd2 => hmem n hn hnd2, ?_, hdecl, by rfl⟩
  intro a b ha hdep
  exact ordClosed_dependsOn_lt cfg.modules _ hord hnd a b ha hdep

/-- Witness for C3 at the concrete A/B/C configuration with rank
A 0, B 1, C 2. -/
theorem C3_resolver_dependency_order_witness :
    (resolveDependencies (some abcCfg) ["C"]).Nodup ∧
    resolveDependencies (some abcCfg) ["C"] = ["A", "B", "C"] := by
  have h := C3_resolver_dependency_order abcCfg ["C"]
    (fun n => if n = "B" then 1 else if n = "C" then 2 else 0)
    (by decide) (by decide) (by decide)
  exact ⟨h.1, h.2.2.2.2⟩

/-! ### Cycle detection (claim C4) -/

theorem findDuplicatesGo_mem_mono (xs : List String) :
    ∀ seen dups y, y ∈ dups → y ∈ findDuplicatesGo xs seen dups := by
  induction xs with
  | nil => intro seen dups y hy; simpa [findDuplicatesGo] using hy
  | cons x xs ih =>
    intro seen dups y hy
    unfold findDuplicatesGo
    by_cases h1 : seen.contains x
    · simp only [h1, if_pos]
      by_cases h2 : dups.contains x
      · simp only [h2, if_pos]; exact ih seen dups y hy
      · simp only [h2, if_neg, Bool.false_eq_true]
        exact ih seen (dups ++ [x]) y (by simp [hy])
    · simp only [h1, if_neg, Bool.false_eq_true]
      exact ih (x :: seen) dups y hy

theorem findDuplicatesGo_clean (xs : List String) :
    ∀ seen dups, xs.Nodup → (∀ x ∈ xs, x ∉ seen) →
      findDuplicatesGo xs seen dups = dups := by
  induction xs with
  | nil => intro seen dups _ _; rfl
  | cons x xs ih =>
    intro seen dups hnd hdisj
    have hx : x ∉ seen := hdisj x (by simp)
    unfold findDuplicatesGo
    simp only [List.nodup_cons] at hnd
    have hxc : seen.contains x = false := by
      simp [hx]
    simp only [hxc, Bool.false_eq_true, if_neg, if_false]
    refine ih (x :: seen) dups hnd.2 ?_
    intro y hy
    simp only [List.mem_cons]
    push_neg
    exact ⟨fun hyx => hnd.1 (hyx ▸ hy), hdisj y (List.mem_cons_of_mem _ hy)⟩

theorem findDuplicatesGo_dirty (xs : List String) :
    ∀ seen dups, ¬ (xs.Nodup ∧ ∀ x ∈ xs, x ∉ seen) →
      ∃ y, y ∈ findDuplicatesGo xs seen dups := by
  induction xs with
  | nil =>
    intro seen dups h
    exact absurd ⟨List.nodup_nil, by simp⟩ h
  | cons x xs ih =>
    intro seen dups h
    unfold findDuplicatesGo
    by_cases h1 : seen.contains x
    · simp only [h1, if_pos]
      by_cases h2 : dups.contains x
      · simp only [h2, if_pos]
        exact ⟨x, findDuplicatesGo_mem_mono xs seen dups x (by simpa using h2)⟩
      · simp only [h2, if_neg, Bool.false_eq_true]
        exact ⟨x, findDuplicatesGo_mem_mono xs seen (dups ++ [x]) x (by simp)⟩
    · simp only [h1, if_neg, Bool.false_eq_true]
      refine ih (x :: seen) dups ?_
      intro ⟨hnd, hdisj⟩
      have hxs : x ∉ xs := fun hm => by
        have := hdisj x hm
        simp at this
      have hx : x ∉ seen := by simpa using h1
      refine h ⟨List.nodup_cons.2 ⟨hxs, hnd⟩, ?_⟩
      intro y hy
      rcases List.mem_cons.1 hy with rfl | hy2
      · exact hx
      · have := hdisj y hy2
        simp only [List.mem_cons] at this
        push_neg at this
        exact this.2

theorem findDuplicates_eq_nil_iff (l : List String) :
    findDuplicates l = [] ↔ l.Nodup := by
  constructor
  · intro h
    by_contra hnd
    obtain ⟨y, hy⟩ := findDuplicatesGo_dirty l [] []
      (fun hc => hnd hc.1)
    rw [findDuplicates] at h
    rw [h] at hy
    exact absurd hy (List.not_mem_nil y)
  · intro h
    exact findDuplicatesGo_clean l [] [] h (by simp)


/-- The argument shape of a traversal call: the dependency-list argument
is exactly the present `dependencies` field of the looked-up module. -/
def GoodCall (mods : List (String × Module)) (n : String)
    (ds : List String) : Prop :=
  ∃ m, lookupMod mods n = some m ∧ m.dependencies = some ds

/-- A node the traversal can expand: declared with a present
`dependencies` field. -/
def Trav (mods : List (String × Module)) (y : String) : Prop :=
  ∃ m ds, lookupMod mods y = some m ∧ m.dependencies = some ds

/-- A directed cycle in the declared dependency graph, given as the head
and tail of its vertex list: consecutive vertices are edges and the last
vertex has an edge back to the head. -/
def IsCycleFrom (mods : List (String × Module)) (y : String)
    (ys : List String) : Prop :=
  List.Chain' (Edge mods) (y :: ys) ∧
    Edge mods ((y :: ys).getLast (List.cons_ne_nil y ys)) y

instance (mods : List (String × Module)) (y : String) (ys : List String) :
    Decidable (IsCycleFrom mods y ys) :=
  inferInstanceAs (Decidable (List.Chain' (Edge mods) (y :: ys) ∧
    Edge mods ((y :: ys).getLast (List.cons_ne_nil y ys)) y))

theorem edge_trav (mods : List (String × Module)) (a b : String)
    (h : Edge mods a b) : Trav mods a := by
  unfold Edge depsOfStr at h
  rcases hl : lookupMod mods a with _ | m
  · simp only [hl] at h
    simp at h
  · simp only [hl] at h
    rcases hd : m.dependencies with _ | ds
    · simp only [hd] at h
      simp at h
    · exact ⟨m, ds, hl, hd⟩

theorem trav_mem (mods : List (String × Module)) (y : String)
    (h : Trav mods y) : y ∈ namesOf mods := by
  obtain ⟨m, _, hl, _⟩ := h
  exact (lookupMod_some_mem mods y m hl).2

theorem depsOfStr_goodCall (mods : List (String × Module)) (n : String)
    (ds : List String) (h : GoodCall mods n ds) : depsOfStr mods n = ds := by
  obtain ⟨m, hl, hd⟩ := h
  simp [depsOfStr, hl, hd]

theorem nodup_subset_length_le (l S : List String) (h : l.Nodup)
    (hs : l ⊆ S) : l.length ≤ S.length := by
  have h1 : l.toFinset.card = l.length := List.toFinset_card_of_nodup h
  have h2 : l.toFinset ⊆ S.toFinset := by
    intro x hx
    simp only [List.mem_toFinset] at hx ⊢
    exact hs hx
  calc l.length = l.toFinset.card := h1.symm
    _ ≤ S.toFinset.card := Finset.card_le_card h2
    _ ≤ S.length := S.toFinset_card_le

theorem detectDepsAux_ne_none (mods : List (String × Module))
    (rec : String → List String → Option (Option (List String)))
    (ds : List String)
    (h : ∀ d ∈ ds, ∀ md dds, lookupMod mods d = some md →
      md.dependencies = some dds → rec d dds ≠ none) :
    detectDepsAux mods rec ds ≠ none := by
  induction ds with
  | nil => simp [detectDepsAux]
  | cons d ds ih =>
    have ihr := ih (fun x hx => h x (List.mem_cons_of_mem _ hx))
    by_cases hg : d ∈ namesOf mods
    · rcases hl : lookupMod mods d with _ | md
      · simpa [detectDepsAux, hg, hl] using ihr
      · rcases hd : md.dependencies with _ | dds
        · simpa [detectDepsAux, hg, hl, hd] using ihr
        · rcases hr : rec d dds with _ | (_ | c)
          · exact absurd hr (h d (by simp) md dds hl hd)
          · simpa [detectDepsAux, hg, hl, hd, hr] using ihr
          · simp [detectDepsAux, hg, hl, hd, hr]
    · simpa [detectDepsAux, hg] using ihr

theorem detectDepsAux_some_some (mods : List (String × Module))
    (rec : String → List String → Option (Option (List String)))
    (ds : List String) (c : List String)
    (h : detectDepsAux mods rec ds = some (some c)) :
    ∃ d ∈ ds, ∃ md dds, lookupMod mods d = some md ∧
      md.dependencies = some dds ∧ rec d dds = some (some c) := by
  induction ds with
  | nil => simp [detectDepsAux] at h
  | cons d ds ih =>
    by_cases hg : d ∈ namesOf mods
    · rcases hl : lookupMod mods d with _ | md
      · simp only [detectDepsAux, List.elem_eq_mem, hg, decide_True, hl, if_true] at h
        obtain ⟨x, hx, rest⟩ := ih h
        exact ⟨x, List.mem_cons_of_mem _ hx, rest⟩
      · rcases hd : md.dependencies with _ | dds
        · simp only [detectDepsAux, List.elem_eq_mem, hg, decide_True, hl, hd, if_true] at h
          obtain ⟨x, hx, rest⟩ := ih h
          exact ⟨x, List.mem_cons_of_mem _ hx, rest⟩
        · rcases hr : rec d dds with _ | (_ | c2)
          · simp only [detectDepsAux, List.elem_eq_mem, hg, decide_True, hl, hd, hr, if_true] at h
            cases h
          · simp only [detectDepsAux, List.elem_eq_mem, hg, decide_True, hl, hd, hr, if_true] at h
            obtain ⟨x, hx, rest⟩ := ih h
            exact ⟨x, List.mem_cons_of_mem _ hx, rest⟩
          · simp only [detectDepsAux, List.elem_eq_mem, hg, decide_True, hl, hd, hr, if_true,
              Option.some.injEq] at h
            exact ⟨d, by simp, md, dds, hl, hd, by rw [hr, h]⟩
    · simp only [detectDepsAux, List.elem_eq_mem, hg, decide_False, if_false] at h
      obtain ⟨x, hx, rest⟩ := ih h
      exact ⟨x, List.mem_cons_of_mem _ hx, rest⟩

theorem detectDepsAux_some_none (mods : List (String × Module))
    (rec : String → List String → Option (Option (List String)))
    (ds : List String)
    (h : detectDepsAux mods rec ds = some none) :
    ∀ d ∈ ds, ∀ md dds, lookupMod mods d = some md →
      md.dependencies = some dds → rec d dds = some none := by
  induction ds with
  | nil => simp
  | cons d ds ih =>
    intro x hx md dds hl hd
    rcases List.mem_cons.1 hx with rfl | hx2
    · have hg : x ∈ namesOf mods := (lookupMod_some_mem mods x md hl).2
      simp only [detectDepsAux, List.elem_eq_mem, hg, decide_True, hl, hd, if_true] at h
      rcases hr : rec x dds with _ | (_ | c2)
      · simp only [hr] at h
        cases h
      · rfl
      · simp only [hr] at h
        cases h
    · by_cases hg : d ∈ namesOf mods
      · rcases hl2 : lookupMod mods d with _ | md2
        · simp only [detectDepsAux, List.elem_eq_mem, hg, decide_True, hl2, if_true] at h
          exact ih h x hx2 md dds hl hd
        · rcases hd2 : md2.dependencies with _ | dds2
          · simp only [detectDepsAux, List.elem_eq_mem, hg, decide_True, hl2, hd2, if_true] at h
            exact ih h x hx2 md dds hl hd
          · rcases hr : rec d dds2 with _ | (_ | c2)
            · simp only [detectDepsAux, List.elem_eq_mem, hg, decide_True, hl2, hd2, hr, if_true] at h
              cases h
            · simp only [detectDepsAux, List.elem_eq_mem, hg, decide_True, hl2, hd2, hr, if_true] at h
              exact ih h x hx2 md dds hl hd
            · simp only [detectDepsAux, List.elem_eq_mem, hg, decide_True, hl2, hd2, hr, if_true] at h
              cases h
      · simp only [detectDepsAux, List.elem_eq_mem, hg, decide_False, if_false] at h
        exact ih h x hx2 md dds hl hd

theorem detectF_ne_none (mods : List (String × Module)) :
    ∀ (fuel : Nat) (n : String) (ds path : List String),
      path.Nodup → (∀ y ∈ path, y ∈ namesOf mods) → n ∈ namesOf mods →
      (namesOf mods).dedup.length + 1 ≤ fuel + path.length →
      detectF mods fuel n ds path ≠ none := by
  intro fuel
  induction fuel with
  | zero =>
    intro n ds path hnd hsub _ harith
    exfalso
    have hle : path.length ≤ (namesOf mods).dedup.length :=
      nodup_subset_length_le path _ hnd
        (fun y hy => List.mem_dedup.2 (hsub y hy))
    omega
  | succ fuel ih =>
    intro n ds path hnd hsub hn harith
    unfold detectF
    by_cases hmem : path.contains n
    · rw [if_pos hmem]
      simp
    · rw [if_neg hmem]
      refine detectDepsAux_ne_none mods _ ds ?_
      intro d _ md dds hl _
      refine ih d dds (path ++ [n]) ?_ ?_ ?_ ?_
      · have : n ∉ path := by simpa using hmem
        simp [List.nodup_append, hnd, this]
      · intro y hy
        rcases List.mem_append.1 hy with hy1 | hy2
        · exact hsub y hy1
        · simp only [List.mem_singleton] at hy2
          subst hy2
          exact hn
      · exact (lookupMod_some_mem mods d md hl).2
      · simp only [List.length_append, List.length_singleton]
        omega

theorem chain'_append_singleton (r : String → String → Prop)
    (l : List String) (b : String) (h : List.Chain' r l)
    (hl : ∀ a, l.getLast? = some a → r a b) : List.Chain' r (l ++ [b]) := by
  rw [List.chain'_append]
  refine ⟨h, List.chain'_singleton b, ?_⟩
  intro x hx y hy
  simp only [List.head?_cons, Option.mem_def, Option.some.injEq] at hy
  subst hy
  exact hl x (Option.mem_def.1 hx)

theorem drop_indexOf_cons (l : List String) (n : String) (h : n ∈ l) :
    l.drop (l.indexOf n) = n :: l.drop (l.indexOf n + 1) := by
  induction l with
  | nil => cases h
  | cons a l ih =>
    by_cases ha : a = n
    · subst ha
      simp [List.indexOf_cons_self]
    · have hne : n ∈ l := by
        rcases List.mem_cons.1 h with h1 | h2
        · exact absurd h1.symm ha
        · exact h2
      have hidx : (a :: l).indexOf n = l.indexOf n + 1 :=
        List.indexOf_cons_ne l ha
      rw [hidx]
      simp only [List.drop_succ_cons]
      exact ih hne

theorem detectF_sound (mods : List (String × Module)) :
    ∀ (fuel : Nat) (n : String) (ds path c : List String),
      List.Chain' (Edge mods) (path ++ [n]) → GoodCall mods n ds →
      detectF mods fuel n ds path = some (some c) →
      ∃ y ys, c = y :: ys ∧ IsCycleFrom mods y ys := by
  intro fuel
  induction fuel with
  | zero =>
    intro n ds path c _ _ h
    simp [detectF] at h
  | succ fuel ih =>
    intro n ds path c hch hgc h
    unfold detectF at h
    by_cases hmem : path.contains n
    · rw [if_pos hmem] at h
      have hnp : n ∈ path := by simpa using hmem
      have hidx : path.indexOf n < path.length := List.indexOf_lt_length.2 hnp
      rw [if_pos hidx] at h
      simp only [Option.some.injEq] at h
      have hdrop := drop_indexOf_cons path n hnp
      refine ⟨n, path.drop (path.indexOf n + 1), by rw [← h, hdrop], ?_⟩
      have hsfx : List.Chain' (Edge mods)
          (path.drop (path.indexOf n) ++ [n]) := by
        have h2 : path ++ [n] = path.take (path.indexOf n) ++
            (path.drop (path.indexOf n) ++ [n]) := by
          rw [← List.append_assoc, List.take_append_drop]
        rw [h2] at hch
        exact List.Chain'.right_of_append hch
      rw [hdrop] at hsfx
      have hsfx2 : List.Chain' (Edge mods)
          ((n :: path.drop (path.indexOf n + 1)) ++ [n]) := by
        simpa using hsfx
      rw [List.chain'_append] at hsfx2
      obtain ⟨hc1, _, hc3⟩ := hsfx2
      refine ⟨hc1, ?_⟩
      refine hc3 _ ?_ n ?_
      · rw [List.getLast?_eq_getLast _ (List.cons_ne_nil _ _)]
        rfl
      · rfl
    · rw [if_neg hmem] at h
      obtain ⟨d, hd, md, dds, hl, hdd, hrec⟩ :=
        detectDepsAux_some_some mods _ ds c h
      have hedge : Edge mods n d := by
        unfold Edge
        rw [depsOfStr_goodCall mods n ds hgc]
        exact hd
      refine ih d dds (path ++ [n]) c ?_ ⟨md, hl, hdd⟩ hrec
      refine chain'_append_singleton _ _ _ hch ?_
      intro a ha
      have hlast : (path ++ [n]).getLast? = some n := by
        simp
      rw [hlast] at ha
      cases ha
      exact hedge

theorem detectF_clear (mods : List (String × Module)) :
    ∀ (w : List String) (fuel : Nat) (n : String) (ds path : List String),
      GoodCall mods n ds →
      detectF mods fuel n ds path = some none →
      List.Chain' (Edge mods) (n :: w) →
      (∀ y ∈ w, Trav mods y) →
      (n :: w).Nodup ∧ ∀ y ∈ n :: w, y ∉ path := by
  intro w
  induction w with
  | nil =>
    intro fuel n ds path _ h _ _
    cases fuel with
    | zero => simp [detectF] at h
    | succ fuel =>
      refine ⟨List.nodup_singleton n, ?_⟩
      intro y hy
      simp only [List.mem_singleton] at hy
      subst hy
      intro hyp
      unfold detectF at h
      rw [if_pos (by simpa using hyp)] at h
      cases h
  | cons v w ih =>
    intro fuel n ds path hgc h hch htrav
    cases fuel with
    | zero => simp [detectF] at h
    | succ fuel =>
      unfold detectF at h
      by_cases hmem : path.contains n
      · rw [if_pos hmem] at h
        cases h
      · rw [if_neg hmem] at h
        have hnp : n ∉ path := by simpa using hmem
        obtain ⟨hedge, hch2⟩ := List.chain'_cons.1 hch
        obtain ⟨mv, dsv, hlv, hdv⟩ := htrav v (by simp)
        have hvds : v ∈ ds := by
          have hds := depsOfStr_goodCall mods n ds hgc
          unfold Edge at hedge
          rw [hds] at hedge
          exact hedge
        have hrec := detectDepsAux_some_none mods _ ds h v hvds mv dsv hlv hdv
        obtain ⟨hnd2, hdisj2⟩ := ih fuel v dsv (path ++ [n]) ⟨mv, hlv, hdv⟩
          hrec hch2 (fun y hy => htrav y (List.mem_cons_of_mem _ hy))
        constructor
        · rw [List.nodup_cons]
          refine ⟨?_, hnd2⟩
          intro hc
          have := hdisj2 n hc
          simp at this
        · intro y hy
          rcases List.mem_cons.1 hy with rfl | hy2
          · exact hnp
          · intro hyp
            exact hdisj2 y hy2 (List.mem_append_left _ hyp)

theorem chain'_edge_sources (mods : List (String × Module)) :
    ∀ (l : List String) (hne : l ≠ []) (y0 : String),
      List.Chain' (Edge mods) l → Edge mods (l.getLast hne) y0 →
      ∀ z ∈ l, ∃ u, Edge mods z u := by
  intro l
  induction l with
  | nil =>
    intro hne
    exact absurd rfl hne
  | cons a l ih =>
    intro hne y0 hch hlast z hz
    cases l with
    | nil =>
      simp only [List.mem_singleton] at hz
      subst hz
      exact ⟨y0, by simpa using hlast⟩
    | cons b l2 =>
      rcases List.mem_cons.1 hz with rfl | hz2
      · exact ⟨b, (List.chain'_cons.1 hch).1⟩
      · refine ih (by simp) y0 (List.chain'_cons.1 hch).2 ?_ z hz2
        have hgl : (a :: b :: l2).getLast hne = (b :: l2).getLast (by simp) :=
          List.getLast_cons (by simp)
        rw [← hgl]
        exact hlast

theorem cycle_members_trav (mods : List (String × Module)) (y : String)
    (ys : List String) (h : IsCycleFrom mods y ys) :
    ∀ z ∈ y :: ys, Trav mods z := by
  intro z hz
  obtain ⟨u, hu⟩ := chain'_edge_sources mods (y :: ys)
    (List.cons_ne_nil y ys) y h.1 h.2 z hz
  exact edge_trav mods z u hu

theorem validateModulesGo_ok (mods : List (String × Module))
    (allNames : List String) :
    ∀ entries, validateModulesGo mods allNames entries = .ok () →
      ∀ p ∈ entries, validateModule mods p.1 p.2 allNames = .ok () := by
  intro entries
  induction entries with
  | nil =>
    intro _ p hp
    cases hp
  | cons q rest ih =>
    intro h p hp
    obtain ⟨n, m⟩ := q
    rcases hv : validateModule mods n m allNames with e | u
    · simp only [validateModulesGo, hv] at h
      cases h
    · simp only [validateModulesGo, hv] at h
      rcases List.mem_cons.1 hp with rfl | hp2
      · simpa using hv
      · exact ih h p hp2

theorem validateModule_ok_no_cycle (mods : List (String × Module))
    (n : String) (m : Module) (allNames : List String) (ds : List String)
    (hd : m.dependencies = some ds)
    (h : validateModule mods n m allNames = .ok ()) :
    detectCircularDependency mods n ds allNames = none := by
  unfold validateModule at h
  rcases hb : checkDepBlock mods n m allNames with e | u
  · simp only [hb] at h
    cases h
  · unfold checkDepBlock at hb
    simp only [hd] at hb
    rcases hc : checkDepList n allNames ds with e2 | u2
    · simp only [hc] at hb
      cases hb
    · simp only [hc] at hb
      rcases hdet : detectCircularDependency mods n ds allNames with _ | c
      · rfl
      · simp only [hdet] at hb
        cases hb

theorem checkDepList_ok (n : String) (allNames deps : List String)
    (h1 : ∀ d ∈ deps, d ∈ allNames) (h2 : n ∉ deps) :
    checkDepList n allNames deps = .ok () := by
  induction deps with
  | nil => rfl
  | cons d ds ih =>
    unfold checkDepList
    have hc : allNames.contains d = true := by
      simpa using h1 d (by simp)
    rw [if_neg (not_not_intro hc)]
    have hdn : (d == n) = false := by
      have hne : d ≠ n := fun hdn => h2 (hdn ▸ List.mem_cons_self d ds)
      simpa using hne
    rw [if_neg (by simp [hdn])]
    exact ih (fun x hx => h1 x (List.mem_cons_of_mem _ hx))
      (fun hx => h2 (List.mem_cons_of_mem _ hx))

theorem checkEmptyArrays_ok (n : String) (m : Module)
    (h1 : m.refs ≠ some []) (h2 : m.files ≠ some [])
    (h3 : m.dependencies ≠ some []) :
    checkEmptyArrays n m = .ok () := by
  rcases hr : m.refs with _ | (_ | ⟨r0, rl⟩) <;>
    rcases hf : m.files with _ | (_ | ⟨f0, fl⟩) <;>
      rcases hd : m.dependencies with _ | (_ | ⟨d0, dl⟩) <;>
        simp_all [checkEmptyArrays]

theorem checkDepBlock_side (mods : List (String × Module)) (n : String)
    (m : Module) (allNames : List String)
    (hdep : ∀ d ∈ m.dependencies.getD [], d ∈ allNames)
    (hself : n ∉ m.dependencies.getD []) :
    checkDepBlock mods n m allNames = .ok () ∨
    ∃ ds c, m.dependencies = some ds ∧
      detectCircularDependency mods n ds allNames = some c ∧
      checkDepBlock mods n m allNames = .error (.circularDependency c n) := by
  unfold checkDepBlock
  rcases hd : m.dependencies with _ | ds
  · left
    rfl
  · have hdep2 : ∀ d ∈ ds, d ∈ allNames := by
      intro d hdm
      exact hdep d (by simp [hd, hdm])
    have hself2 : n ∉ ds := by
      simpa [hd] using hself
    simp only []
    rw [checkDepList_ok n allNames ds hdep2 hself2]
    rcases hdet : detectCircularDependency mods n ds allNames with _ | c
    · left
      simp only [hdet]
    · right
      refine ⟨ds, c, rfl, hdet, ?_⟩
      simp only [hdet]

theorem validateModule_side (mods : List (String × Module)) (n : String)
    (m : Module) (allNames : List String)
    (hdep : ∀ d ∈ m.dependencies.getD [], d ∈ allNames)
    (hself : n ∉ m.dependencies.getD [])
    (h1 : m.refs ≠ some []) (h2 : m.files ≠ some [])
    (h3 : m.dependencies ≠ some []) :
    validateModule mods n m allNames = .ok () ∨
    ∃ ds c, m.dependencies = some ds ∧
      detectCircularDependency mods n ds allNames = some c ∧
      validateModule mods n m allNames = .error (.circularDependency c n) := by
  unfold validateModule
  rcases checkDepBlock_side mods n m allNames hdep hself with hok | ⟨ds, c, hds, hdet, herr⟩
  · left
    rw [hok]
    exact checkEmptyArrays_ok n m h1 h2 h3
  · right
    exact ⟨ds, c, hds, hdet, by rw [herr]⟩

theorem lookupMod_of_nodup (mods : List (String × Module)) (n : String)
    (m : Module) (hnd : (namesOf mods).Nodup) (hm : (n, m) ∈ mods) :
    lookupMod mods n = some m := by
  induction mods with
  | nil => cases hm
  | cons p rest ih =>
    have hnd2 : (namesOf rest).Nodup := by
      simpa [namesOf] using (List.nodup_cons.1 hnd).2
    rcases List.mem_cons.1 hm with rfl | hm2
    · simp [lookupMod]
    · have hne : (p.1 == n) = false := by
        simp only [beq_eq_false_iff_ne, ne_eq]
        intro he
        have hin : n ∈ namesOf rest := List.mem_map.2 ⟨(n, m), hm2, rfl⟩
        have hhead := (List.nodup_cons.1 hnd).1
        simp only [] at hhead
        rw [he] at hhead
        exact hhead (by simpa [namesOf] using hin)
      unfold lookupMod
      rw [List.find?_cons]
      simp only [hne, cond_false]
      exact ih hnd2 hm2

theorem validateModulesGo_side (mods : List (String × Module))
    (hnd : (namesOf mods).Nodup)
    (hdep : ∀ p ∈ mods, ∀ d ∈ p.2.dependencies.getD [],
      d ∈ namesOf mods)
    (hself : ∀ p ∈ mods, p.1 ∉ p.2.dependencies.getD [])
    (hemp : ∀ p ∈ mods, p.2.refs ≠ some [] ∧ p.2.files ≠ some [] ∧
      p.2.dependencies ≠ some []) :
    ∀ entries, (∀ p ∈ entries, p ∈ mods) →
      validateModulesGo mods (namesOf mods) entries = .ok () ∨
      ∃ c nm, validateModulesGo mods (namesOf mods) entries =
          .error (.circularDependency c nm) ∧
        ∃ z zs, c = z :: zs ∧ IsCycleFrom mods z zs := by
  intro entries
  induction entries with
  | nil =>
    intro _
    left
    rfl
  | cons q rest ih =>
    intro hsub
    obtain ⟨n, m⟩ := q
    have hmem : (n, m) ∈ mods := hsub _ (by simp)
    rcases validateModule_side mods n m (namesOf mods)
      (hdep _ hmem) (hself _ hmem) (hemp _ hmem).1 (hemp _ hmem).2.1
      (hemp _ hmem).2.2 with hok | ⟨ds, c, hds, hdet, herr⟩
    · rcases ih (fun p hp => hsub p (List.mem_cons_of_mem _ hp)) with
        hok2 | ⟨c, nm, herr2, hgen⟩
      · left
        simp only [validateModulesGo, hok]
        exact hok2
      · right
        refine ⟨c, nm, ?_, hgen⟩
        simp only [validateModulesGo, hok]
        exact herr2
    · right
      refine ⟨c, n, by simp only [validateModulesGo, herr], ?_⟩
      have hgc : GoodCall mods n ds :=
        ⟨m, lookupMod_of_nodup mods n m hnd hmem, hds⟩
      have hdf : detectF mods ((namesOf mods).length + 1) n ds [] =
          some (some c) := by
        unfold detectCircularDependency at hdet
        rcases hx : detectF mods ((namesOf mods).length + 1) n ds [] with
          _ | r
        · simp only [hx] at hdet
          cases hdet
        · simp only [hx] at hdet
          rw [hdet]
      exact detectF_sound mods _ n ds [] c
        (by simp [List.chain'_singleton]) hgc hdf

theorem validateConfig_cycle_fails (cfg : BoilItConfig) (y : String)
    (ys : List String) (hcyc : IsCycleFrom cfg.modules y ys) :
    validateConfig cfg ≠ .ok () := by
  intro hok
  unfold validateConfig at hok
  by_cases hdup : (findDuplicates (namesOf cfg.modules)).isEmpty
  · rw [if_pos hdup] at hok
    have htravy : Trav cfg.modules y :=
      cycle_members_trav _ y ys hcyc y (by simp)
    obtain ⟨my, dys, hly, hdy⟩ := htravy
    have hpm := lookupMod_some_mem cfg.modules y my hly
    have hvm := validateModulesGo_ok cfg.modules (namesOf cfg.modules)
      cfg.modules hok (y, my) hpm.1
    have hdet := validateModule_ok_no_cycle cfg.modules y my
      (namesOf cfg.modules) dys hdy hvm
    have hne := detectF_ne_none cfg.modules
      ((namesOf cfg.modules).length + 1) y dys []
      List.nodup_nil (by simp) hpm.2
      (by
        have := (namesOf cfg.modules).dedup_sublist.length_le
        simp only [List.length_nil]
        omega)
    have hsn : detectF cfg.modules ((namesOf cfg.modules).length + 1) y
        dys [] = some none := by
      unfold detectCircularDependency at hdet
      rcases hx : detectF cfg.modules ((namesOf cfg.modules).length + 1) y
        dys [] with _ | (_ | c)
      · exact absurd hx hne
      · rfl
      · simp only [hx] at hdet
        cases hdet
    have hchain : List.Chain' (Edge cfg.modules) (y :: (ys ++ [y])) := by
      have heq : y :: (ys ++ [y]) = (y :: ys) ++ [y] := by simp
      rw [heq]
      refine chain'_append_singleton _ _ _ hcyc.1 ?_
      intro a ha
      rw [List.getLast?_eq_getLast _ (List.cons_ne_nil y ys)] at ha
      cases ha
      exact hcyc.2
    obtain ⟨hnd2, _⟩ := detectF_clear cfg.modules (ys ++ [y]) _ y dys []
      ⟨my, hly, hdy⟩ hsn hchain
      (fun z hz => by
        rcases List.mem_append.1 hz with hz1 | hz2
        · exact cycle_members_trav _ y ys hcyc z (List.mem_cons_of_mem _ hz1)
        · simp only [List.mem_singleton] at hz2
          rw [hz2]
          exact cycle_members_trav _ y ys hcyc y (by simp))
    rw [List.nodup_cons] at hnd2
    exact hnd2.1 (List.mem_append_right ys (by simp))
  · rw [if_neg hdup] at hok
    cases hok

/-- Side conditions under which cycle detection is the first validation
check that can fire: pairwise-distinct module names, every dependency
declared, no self-dependencies, no present-but-empty arrays. -/
def SideConds (cfg : BoilItConfig) : Prop :=
  (namesOf cfg.modules).Nodup ∧
  (∀ p ∈ cfg.modules, ∀ d ∈ p.2.dependencies.getD [],
    d ∈ namesOf cfg.modules) ∧
  (∀ p ∈ cfg.modules, p.1 ∉ p.2.dependencies.getD []) ∧
  (∀ p ∈ cfg.modules, p.2.refs ≠ some [] ∧ p.2.files ≠ some [] ∧
    p.2.dependencies ≠ some [])

instance (cfg : BoilItConfig) : Decidable (SideConds cfg) :=
  inferInstanceAs (Decidable ((namesOf cfg.modules).Nodup ∧
    (∀ p ∈ cfg.modules, ∀ d ∈ p.2.dependencies.getD [],
      d ∈ namesOf cfg.modules) ∧
    (∀ p ∈ cfg.modules, p.1 ∉ p.2.dependencies.getD []) ∧
    (∀ p ∈ cfg.modules, p.2.refs ≠ some [] ∧ p.2.files ≠ some [] ∧
      p.2.dependencies ≠ some [])))

/-- C4 (amended): for every dependency graph containing a cycle among
declared modules, configuration validation fails deterministically; and
when no earlier-ordered check fires first (names pairwise distinct,
every dependency declared, no self-dependency, no present-but-empty
array) the failure is a circular-dependency error whose reported list —
the path segment from the point of re-entry to the current node — is a
genuine directed cycle of the declared graph. -/
theorem C4_cycle_detection (cfg : BoilItConfig) (y : String)
    (ys : List String) (hcyc : IsCycleFrom cfg.modules y ys) :
    validateConfig cfg ≠ .ok () ∧
    (SideConds cfg →
      ∃ c nm, validateConfig cfg = .error (.circularDependency c nm) ∧
        ∃ z zs, c = z :: zs ∧ IsCycleFrom cfg.modules z zs) := by
  refine ⟨validateConfig_cycle_fails cfg y ys hcyc, ?_⟩
  rintro ⟨hnd, hdep, hself, hemp⟩
  have hdups : findDuplicates (namesOf cfg.modules) = [] :=
    (findDuplicates_eq_nil_iff _).2 hnd
  rcases validateModulesGo_side cfg.modules hnd hdep hself hemp
    cfg.modules (fun p hp => hp) with hok | ⟨c, nm, herr, hgen⟩
  · exfalso
    refine validateConfig_cycle_fails cfg y ys hcyc ?_
    unfold validateConfig
    rw [if_pos (by simp [hdups])]
    exact hok
  · refine ⟨c, nm, ?_, hgen⟩
    unfold validateConfig
    rw [if_pos (by simp [hdups])]
    exact herr

/-- Configuration with a single self-depending module. -/
def selfLoopCfg : BoilItConfig :=
  { name := "Repo",
    modules := [("a", ({ dependencies := some ["a"] } : Module))] }

/-- Counterexample to C4 as stated: a self-dependency is a cycle of
length one reachable from a declared module, yet validation fails with
the distinct self-dependency error, not a circular-dependency error. -/
theorem C4_counterexample_self_loop :
    IsCycleFrom selfLoopCfg.modules "a" [] ∧
    validateConfig selfLoopCfg = .error (.selfDependency "a") ∧
    ∀ c nm, validateConfig selfLoopCfg ≠ .error (.circularDependency c nm) := by
  refine ⟨⟨List.chain'_singleton ("a"), by decide⟩, rfl, ?_⟩
  intro c nm h
  rw [show validateConfig selfLoopCfg = .error (.selfDependency ("a")) from rfl] at h
  cases h

/-- Configuration with a two-cycle between modules `A` and `B`. -/
def twoCycleCfg : BoilItConfig :=
  { name := "Repo",
    modules := [("A", ({ dependencies := some ["B"] } : Module)),
                ("B", ({ dependencies := some ["A"] } : Module))] }

/-- Witness for C4 at the two-cycle configuration. -/
theorem C4_cycle_detection_witness :
    validateConfig twoCycleCfg ≠ .ok () ∧
    ∃ c nm, validateConfig twoCycleCfg = .error (.circularDependency c nm) ∧
      ∃ z zs, c = z :: zs ∧ IsCycleFrom twoCycleCfg.modules z zs := by
  have h := C4_cycle_detection twoCycleCfg "A" ["B"]
    ⟨List.chain'_pair.2 (by decide), by decide⟩
  exact ⟨h.1, h.2 (by decide)⟩

theorem validateRequestedModules_ok_iff (cfg : BoilItConfig)
    (requested : List String) :
    validateRequestedModules cfg requested = .ok () ↔
      ∀ n ∈ requested, n ∈ namesOf cfg.modules := by
  unfold validateRequestedModules
  by_cases h : (requested.filter (fun n => ! (namesOf cfg.modules).contains n)).isEmpty
  · simp only [h, if_pos]
    simp only [List.isEmpty_iff, List.filter_eq_nil_iff] at h
    constructor
    · intro _ n hn
      have := h n hn
      simpa using this
    · intro _
      trivial
  · simp only [h, if_neg, Bool.false_eq_true]
    simp only [List.isEmpty_iff, List.filter_eq_nil_iff] at h
    push_neg at h
    obtain ⟨n, hn, hmem⟩ := h
    constructor
    · intro hcontra
      exact absurd hcontra (by simp)
    · intro hall
      have := hall n hn
      simp [this] at hmem

/-- C7: for every requested-module-name list validated against a
configuration, all names absent from the configuration are collected and
reported together in a single error carrying the full set of available
module names (or the distinct no-modules suggestion when the
configuration defines no modules); validation succeeds iff every
requested name exists, and never fails on only the first invalid
name. -/
theorem C7_requested_modules_batched (cfg : BoilItConfig)
    (requested : List String) :
    (validateRequestedModules cfg requested = .ok () ↔
      ∀ n ∈ requested, n ∈ namesOf cfg.modules) ∧
    ((∃ n ∈ requested, n ∉ namesOf cfg.modules) →
      validateRequestedModules cfg requested =
        .error (.invalidRequested
          (requested.filter (fun n => ! (namesOf cfg.modules).contains n))
          (if (namesOf cfg.modules).length > 0 then
            .availableList (namesOf cfg.modules)
           else .noModulesDefined))) := by
  refine ⟨validateRequestedModules_ok_iff cfg requested, ?_⟩
  intro hex
  unfold validateRequestedModules
  have hne : ¬ (requested.filter (fun n => ! (namesOf cfg.modules).contains n)).isEmpty := by
    obtain ⟨n, hn, hmem⟩ := hex
    simp only [List.isEmpty_iff, List.filter_eq_nil_iff]
    push_neg
    exact ⟨n, hn, by simpa using hmem⟩
  simp [hne]
  exact hex

/-- Concrete configuration for the C7 witness: modules `auth`, `user`. -/
def c7cfg : BoilItConfig :=
  { name := "Repo", modules := [("auth", ({} : Module)), ("user", ({} : Module))] }

/-- Witness for C7 at the concrete example of the specification:
requesting `foo`, `bar` against `{auth, user}` yields one error listing
both invalid names and the available set. -/
theorem C7_requested_modules_batched_witness :
    validateRequestedModules c7cfg ["foo", "bar"] =
      .error (.invalidRequested ["foo", "bar"]
        (.availableList ["auth", "user"])) := by
  have h := (C7_requested_modules_batched c7cfg ["foo", "bar"]).2
    (by decide)
  rw [h]
  rfl

/-! ### Duplicate module names (claim C9) -/

theorem checkDepList_ne_duplicate (moduleName : String)
    (allNames : List String) (deps : List String) (d : List String) :
    checkDepList moduleName allNames deps ≠ .error (.duplicateModules d) := by
  induction deps with
  | nil => simp [checkDepList]
  | cons dep ds ih =>
    unfold checkDepList
    split_ifs with h1 h2 <;> first | exact ih | simp

theorem checkDepBlock_ne_duplicate (mods : List (String × Module))
    (n : String) (m : Module) (allNames : List String) (d : List String) :
    checkDepBlock mods n m allNames ≠ .error (.duplicateModules d) := by
  unfold checkDepBlock
  rcases hd : m.dependencies with _ | deps
  · simp [hd]
  · simp only [hd]
    rcases hc : checkDepList n allNames deps with e | u
    · simp only [hc]
      intro hcontra
      simp only [Except.error.injEq] at hcontra
      exact checkDepList_ne_duplicate n allNames deps d (by rw [hc, hcontra])
    · simp only [hc]
      rcases hdet : detectCircularDependency mods n deps allNames with _ | c <;>
        simp [hdet]

theorem checkEmptyArrays_ne_duplicate (n : String) (m : Module)
    (d : List String) :
    checkEmptyArrays n m ≠ .error (.duplicateModules d) := by
  unfold checkEmptyArrays
  split
  · simp
  · split
    · simp
    · split
      · simp
      · simp

theorem validateModule_ne_duplicate (mods : List (String × Module))
    (n : String) (m : Module) (allNames : List String) (d : List String) :
    validateModule mods n m allNames ≠ .error (.duplicateModules d) := by
  unfold validateModule
  rcases hblock : checkDepBlock mods n m allNames with e | u
  · simp only [hblock]
    intro hcontra
    simp only [Except.error.injEq] at hcontra
    exact checkDepBlock_ne_duplicate mods n m allNames d (by rw [hblock, hcontra])
  · simp only [hblock]
    exact checkEmptyArrays_ne_duplicate n m d

theorem validateModulesGo_ne_duplicate (mods : List (String × Module))
    (allNames : List String) (entries : List (String × Module))
    (d : List String) :
    validateModulesGo mods allNames entries ≠ .error (.duplicateModules d) := by
  induction entries with
  | nil => simp [validateModulesGo]
  | cons p rest ih =>
    unfold validateModulesGo
    rcases hv : validateModule mods p.1 p.2 allNames with e | u
    · intro hcontra
      simp only [Except.error.injEq] at hcontra
      exact validateModule_ne_duplicate mods p.1 p.2 allNames d (hcontra ▸ hv)
    · exact ih

/-- C9 (amended): configuration validation reports exact duplicate
module names as a distinct error listing exactly the names occurring
more than once; when the module names are pairwise distinct as exact
strings (as object keys always are), no duplicate error is ever raised,
so case-insensitive or whitespace-variant collisions are not treated as
duplicates. -/
theorem C9_duplicates_exact_strings (cfg : BoilItConfig) :
    (∀ l : List String, findDuplicates l = [] ↔ l.Nodup) ∧
    (¬ (namesOf cfg.modules).Nodup →
      validateConfig cfg =
        .error (.duplicateModules (findDuplicates (namesOf cfg.modules)))) ∧
    ((namesOf cfg.modules).Nodup →
      ∀ d, validateConfig cfg ≠ .error (.duplicateModules d)) := by
  refine ⟨findDuplicates_eq_nil_iff, ?_, ?_⟩
  · intro hnd
    unfold validateConfig
    have : ¬ findDuplicates (namesOf cfg.modules) = [] := by
      intro hc
      exact hnd ((findDuplicates_eq_nil_iff _).1 hc)
    simp only [List.isEmpty_iff, this, if_neg, if_false]
  · intro hnd d
    unfold validateConfig
    have : findDuplicates (namesOf cfg.modules) = [] :=
      (findDuplicates_eq_nil_iff _).2 hnd
    simp only [List.isEmpty_iff, this, if_pos, if_true]
    exact validateModulesGo_ne_duplicate _ _ _ d

/-- Configuration whose module mapping holds the case-variant names
`auth` and `Auth`, which are distinct object keys. -/
def caseCollisionCfg : BoilItConfig :=
  { name := "Repo",
    modules := [("auth", ({} : Module)), ("Auth", ({} : Module))] }

/-- Counterexample to C9 as stated: a configuration containing both
`auth` and `Auth` passes validation, so case-variant collisions are not
treated as duplicate module names. -/
theorem C9_counterexample_case_variants :
    validateConfig caseCollisionCfg = .ok () := by
  rfl

/-- Configuration with an exact duplicate key in the association-list
model, for the C9 witness. -/
def dupCfg : BoilItConfig :=
  { name := "Repo",
    modules := [("a", ({} : Module)), ("a", ({} : Module))] }

/-- Witness for C9: at a configuration with an exact duplicate name the
validator reports the duplicate error, and the case-variant
configuration has pairwise-distinct names so no duplicate error can
arise there. -/
theorem C9_duplicates_exact_strings_witness :
    validateConfig dupCfg = .error (.duplicateModules ["a"]) ∧
    ∀ d, validateConfig caseCollisionCfg ≠ .error (.duplicateModules d) := by
  constructor
  · have h := (C9_duplicates_exact_strings dupCfg).2.1 (by decide)
    rw [h]
    rfl
  · exact (C9_duplicates_exact_strings caseCollisionCfg).2.2 (by decide)

/-! ### A regular-expression engine for the compiled globs -/

/-- Character classes occurring in the regular expressions the glob
compiler emits: a literal character, the dot, and the negated class
containing every character except the slash. -/
inductive CCls
  | lit (c : Char)
  | dot
  | nslash
deriving DecidableEq

/-- Whether a character matches a class, per JavaScript regular
expression semantics without flags: `.` excludes the four line
terminators (accurate for single-code-unit subjects), the negated class
excludes only the slash. -/
def cmatch : CCls → Char → Bool
  | .lit c, d => c == d
  | .dot, d =>
    ! (d == '\n' || d == '\r' || d == '\u2028' || d == '\u2029')
  | .nslash, d => ! (d == '/')

/-- Regular expressions over the constructs the compiled globs use. -/
inductive RE
  | emp
  | eps
  | one (k : CCls)
  | rep (k : CCls)
  | alt (p q : RE)
  | seq (p q : RE)
deriving DecidableEq

/-- Nullability. -/
def RE.matchEps : RE → Bool
  | .emp => false
  | .eps => true
  | .one _ => false
  | .rep _ => true
  | .alt p q => p.matchEps || q.matchEps
  | .seq p q => p.matchEps && q.matchEps

/-- Brzozowski derivative with respect to one character. -/
def RE.deriv : RE → Char → RE
  | .emp, _ => .emp
  | .eps, _ => .emp
  | .one k, a => if cmatch k a then .eps else .emp
  | .rep k, a => if cmatch k a then .rep k else .emp
  | .alt p q, a => .alt (p.deriv a) (q.deriv a)
  | .seq p q, a =>
    if p.matchEps then .alt (.seq (p.deriv a) q) (q.deriv a)
    else .seq (p.deriv a) q

/-- Anchored matching by iterated derivatives. -/
def RE.rmatch : RE → List Char → Bool
  | p, [] => p.matchEps
  | p, a :: as => (p.deriv a).rmatch as

theorem RE.emp_rmatch (s : List Char) : RE.emp.rmatch s = false := by
  induction s with
  | nil => rfl
  | cons a as ih => simpa [RE.rmatch, RE.deriv] using ih

theorem RE.eps_rmatch_iff (s : List Char) :
    RE.eps.rmatch s = true ↔ s = [] := by
  cases s with
  | nil => simp [RE.rmatch, RE.matchEps]
  | cons a as => simp [RE.rmatch, RE.deriv, RE.emp_rmatch]

theorem RE.one_rmatch_iff (k : CCls) (s : List Char) :
    (RE.one k).rmatch s = true ↔ ∃ a, s = [a] ∧ cmatch k a := by
  cases s with
  | nil => simp [RE.rmatch, RE.matchEps]
  | cons a as =>
    simp only [RE.rmatch, RE.deriv]
    by_cases hc : cmatch k a
    · rw [if_pos hc, RE.eps_rmatch_iff]
      constructor
      · rintro rfl
        exact ⟨a, rfl, hc⟩
      · rintro ⟨b, hb, _⟩
        simp only [List.cons.injEq] at hb
        exact hb.2
    · rw [if_neg hc, RE.emp_rmatch]
      constructor
      · intro h
        cases h
      · rintro ⟨b, hb, hcb⟩
        simp only [List.cons.injEq] at hb
        rw [← hb.1] at hcb
        exact absurd hcb hc

theorem RE.rep_rmatch_iff (k : CCls) (s : List Char) :
    (RE.rep k).rmatch s = true ↔ ∀ a ∈ s, cmatch k a := by
  induction s with
  | nil => simp [RE.rmatch, RE.matchEps]
  | cons a as ih =>
    simp only [RE.rmatch, RE.deriv]
    by_cases hc : cmatch k a
    · rw [if_pos hc, ih]
      simp [hc]
    · rw [if_neg hc, RE.emp_rmatch]
      simp [hc]

theorem RE.alt_rmatch_iff (p q : RE) (s : List Char) :
    (RE.alt p q).rmatch s = true ↔
      p.rmatch s = true ∨ q.rmatch s = true := by
  induction s generalizing p q with
  | nil => simp [RE.rmatch, RE.matchEps]
  | cons a as ih =>
    simp only [RE.rmatch, RE.deriv]
    exact ih _ _

theorem RE.seq_rmatch_iff (p q : RE) (s : List Char) :
    (RE.seq p q).rmatch s = true ↔
      ∃ t u, s = t ++ u ∧ p.rmatch t = true ∧ q.rmatch u = true := by
  induction s generalizing p q with
  | nil =>
    simp only [RE.rmatch, RE.matchEps, Bool.and_eq_true]
    constructor
    · rintro ⟨hp, hq⟩
      exact ⟨[], [], rfl, hp, hq⟩
    · rintro ⟨t, u, hs, hp, hq⟩
      obtain ⟨rfl, rfl⟩ := List.append_eq_nil.1 hs.symm
      exact ⟨hp, hq⟩
  | cons a s ih =>
    simp only [RE.rmatch, RE.deriv]
    by_cases he : p.matchEps
    · rw [if_pos he, RE.alt_rmatch_iff, ih]
      constructor
      · rintro (⟨t, u, hs, hp, hq⟩ | hq)
        · refine ⟨a :: t, u, ?_, hp, hq⟩
          rw [List.cons_append, hs]
        · exact ⟨[], a :: s, rfl, he, hq⟩
      · rintro ⟨t, u, hs, hp, hq⟩
        cases t with
        | nil =>
          right
          rw [List.nil_append] at hs
          rw [← hs] at hq
          exact hq
        | cons b t =>
          left
          rw [List.cons_append] at hs
          injection hs with h1 h2
          subst h1
          exact ⟨t, u, h2, hp, hq⟩
    · rw [if_neg he, ih]
      constructor
      · rintro ⟨t, u, hs, hp, hq⟩
        refine ⟨a :: t, u, ?_, hp, hq⟩
        rw [List.cons_append, hs]
      · rintro ⟨t, u, hs, hp, hq⟩
        cases t with
        | nil =>
          rw [List.nil_append] at hs
          exfalso
          have : p.matchEps = true := hp
          exact he this
        | cons b t =>
          rw [List.cons_append] at hs
          injection hs with h1 h2
          subst h1
          exact ⟨t, u, h2, hp, hq⟩

/-! ### The glob-to-regex compiler (claim C5) -/

/-- Leftmost, non-overlapping replacement of every occurrence of the
literal pattern `pat` by `repl`, as JavaScript `String.replace` with a
global literal pattern; replacement text is not rescanned.  Structural
fuel; `replaceAll` supplies the subject length, which suffices because
every step consumes at least one character. -/
def replaceAllF (pat repl : List Char) : Nat → List Char → List Char
  | _, [] => []
  | 0, s => s
  | fuel + 1, c :: cs =>
    if pat ≠ [] ∧ pat.isPrefixOf (c :: cs) then
      repl ++ replaceAllF pat repl fuel (cs.drop (pat.length - 1))
    else
      c :: replaceAllF pat repl fuel cs

/-- Global literal replacement. -/
def replaceAll (pat repl s : List Char) : List Char :=
  replaceAllF pat repl s.length s

/-- The regex-special characters escaped by `globToRegExp`
(`src/boilit.ts` line 573, the class of dot, plus, caret, dollar,
braces, parentheses, pipe, brackets and backslash; note the question
mark and the star are not in the class). -/
def escSpecials : List Char :=
  ['.', '+', '^', '$', '\x7b', '\x7d', '(', ')', '|', '[', ']', '\\']

/-- One global pass of the escape replacement (a single-character class
pattern, hence a per-character transformation). -/
def escapePass : List Char → List Char
  | [] => []
  | c :: cs => (if c ∈ escSpecials then ['\\', c] else [c]) ++ escapePass cs

/-- One global pass replacing the star (a single character) by the
no-slash-star class text. -/
def starPass : List Char → List Char
  | [] => []
  | c :: cs =>
    (if c = '*' then ['[', '^', '/', ']', '*'] else [c]) ++ starPass cs

/-- Placeholder protecting the double-star-slash during compilation. -/
def phDir : List Char := [':', ':', 'D', 'S', '_', 'D', 'I', 'R', ':', ':']

/-- Placeholder protecting the double star during compilation. -/
def phDS : List Char := [':', ':', 'D', 'S', ':', ':']

/-- Replacement text restored for the double-star-slash placeholder. -/
def groupDir : List Char := ['(', '?', ':', '.', '*', '/', ')', '?']

/-- Embedding of `globToRegExp` (`src/boilit.ts` lines 567-580): the
seven replacement passes building the regex source, then anchoring.
The value is the regex source string handed to `new RegExp`. -/
def globToRegExp (pattern : List Char) : List Char :=
  let p1 := replaceAll ['\\'] ['/'] pattern
  let p2 := replaceAll ['*', '*', '/'] phDir p1
  let p3 := replaceAll ['*', '*'] phDS p2
  let p4 := escapePass p3
  let p5 := starPass p4
  let p6 := replaceAll phDir groupDir p5
  let p7 := replaceAll phDS ['.', '*'] p6
  '^' :: p7 ++ ['$']

/-- Right-nested concatenation of a list of regular expressions. -/
def seqList (items : List RE) : RE :=
  items.foldr RE.seq RE.eps

/-- Recursive-descent parser for the regex dialect the compiler emits
(anchored body with escaped literals, plain literals, the no-slash
class, the dot, the non-capturing group, and the star and question-mark
postfix quantifiers), modelling the JavaScript engine on exactly these
sources.  `acc` is the reversed item list of the current sequence,
`stk` the stack of enclosing group sequences; unsupported constructs
parse to `none`. -/
def parseSeq : List Char → List RE → List (List RE) → Option (List RE)
  | [], _, _ => none
  | '$' :: rest, acc, [] => if rest.isEmpty then some acc.reverse else none
  | '$' :: _, _, _ :: _ => none
  | ')' :: '?' :: rest, acc, top :: stk =>
    parseSeq rest (RE.alt (seqList acc.reverse) RE.eps :: top) stk
  | ')' :: '*' :: _, _, _ => none
  | ')' :: rest, acc, top :: stk =>
    parseSeq rest (seqList acc.reverse :: top) stk
  | ')' :: _, _, [] => none
  | '(' :: '?' :: ':' :: rest, acc, stk => parseSeq rest [] (acc :: stk)
  | '(' :: _, _, _ => none
  | '\\' :: d :: '*' :: rest, acc, stk =>
    parseSeq rest (RE.rep (.lit d) :: acc) stk
  | '\\' :: d :: '?' :: rest, acc, stk =>
    parseSeq rest (RE.alt (RE.one (.lit d)) RE.eps :: acc) stk
  | '\\' :: d :: rest, acc, stk =>
    parseSeq rest (RE.one (.lit d) :: acc) stk
  | ['\\'], _, _ => none
  | '[' :: '^' :: '/' :: ']' :: '*' :: rest, acc, stk =>
    parseSeq rest (RE.rep .nslash :: acc) stk
  | '[' :: '^' :: '/' :: ']' :: '?' :: rest, acc, stk =>
    parseSeq rest (RE.alt (RE.one .nslash) RE.eps :: acc) stk
  | '[' :: '^' :: '/' :: ']' :: rest, acc, stk =>
    parseSeq rest (RE.one .nslash :: acc) stk
  | '[' :: _, _, _ => none
  | '.' :: '*' :: rest, acc, stk => parseSeq rest (RE.rep .dot :: acc) stk
  | '.' :: '?' :: rest, acc, stk =>
    parseSeq rest (RE.alt (RE.one .dot) RE.eps :: acc) stk
  | '.' :: rest, acc, stk => parseSeq rest (RE.one .dot :: acc) stk
  | '*' :: _, _, _ => none
  | '?' :: _, _, _ => none
  | c :: '*' :: rest, acc, stk => parseSeq rest (RE.rep (.lit c) :: acc) stk
  | c :: '?' :: rest, acc, stk =>
    parseSeq rest (RE.alt (RE.one (.lit c)) RE.eps :: acc) stk
  | c :: rest, acc, stk => parseSeq rest (RE.one (.lit c) :: acc) stk

/-- Model of the JavaScript regular-expression engine applied to a
compiled glob: parse the anchored source and match the whole subject
(`RegExp.test` against a caret-dollar-anchored source). -/
def regexAccepts (re s : List Char) : Bool :=
  match re with
  | '^' :: body =>
    match parseSeq body [] [] with
    | some items => (seqList items).rmatch s
    | none => false
  | _ => false

/-- The predicate the file-selection engine evaluates:
`globToRegExp(pattern).test(path)`. -/
def globTest (pattern s : List Char) : Bool :=
  regexAccepts (globToRegExp pattern) s

/-- Tokens of a glob pattern: a literal character, one star, a double
star, a double star followed by a slash. -/
inductive GTok
  | lit (c : Char)
  | star
  | dstar
  | dstarSlash
deriving DecidableEq

/-- Greedy tokenisation of a glob pattern, longest construct first, the
reading under which the specification describes the four constructs. -/
def gtokenize : List Char → List GTok
  | '*' :: '*' :: '/' :: r => .dstarSlash :: gtokenize r
  | '*' :: '*' :: r => .dstar :: gtokenize r
  | '*' :: r => .star :: gtokenize r
  | c :: r => .lit c :: gtokenize r
  | [] => []

/-- Specification-level matching relation, a direct reading of the
specification sentence: a literal matches itself; one star matches any
characters within one path segment (no slash); a double star matches
any characters; a double star with slash matches zero or more leading
directory segments, that is, nothing or any prefix ending in a slash;
matching is anchored. -/
def TokMatch : List GTok → List Char → Prop
  | [], s => s = []
  | .lit c :: ts, s => ∃ s2, s = c :: s2 ∧ TokMatch ts s2
  | .star :: ts, s =>
    ∃ u v, s = u ++ v ∧ (∀ c ∈ u, c ≠ '/') ∧ TokMatch ts v
  | .dstar :: ts, s => ∃ u v, s = u ++ v ∧ TokMatch ts v
  | .dstarSlash :: ts, s =>
    TokMatch ts s ∨ ∃ u v, s = u ++ '/' :: v ∧ TokMatch ts v

/-- The specification-level glob predicate. -/
def SpecGlobMatch (pattern s : List Char) : Prop :=
  TokMatch (gtokenize pattern) s

/-- Regular expression denoted by one glob token, as the parser
produces it from the compiled source. -/
def tokRE : GTok → RE
  | .lit c => RE.one (.lit c)
  | .star => RE.rep .nslash
  | .dstar => RE.rep .dot
  | .dstarSlash =>
    RE.alt (RE.seq (RE.rep .dot) (RE.seq (RE.one (.lit '/')) RE.eps)) RE.eps

/-- Final rendering of one glob token inside the compiled regex
source. -/
def renderTok : GTok → List Char
  | .lit c => if c ∈ escSpecials then ['\\', c] else [c]
  | .star => ['[', '^', '/', ']', '*']
  | .dstar => ['.', '*']
  | .dstarSlash => ['(', '?', ':', '.', '*', '/', ')', '?']

/-- Characters of the restricted pattern alphabet over which the
compiled matcher provably agrees with the specification reading:
lowercase letters, digits, dot, dash, underscore, slash and star. -/
def okChar (c : Char) : Bool :=
  ('a' ≤ c && c ≤ 'z') || ('0' ≤ c && c ≤ '9') ||
    c == '.' || c == '-' || c == '_' || c == '/' || c == '*'

/-- No run of three consecutive stars. -/
def noTriple : List Char → Bool
  | '*' :: '*' :: '*' :: _ => false
  | _ :: r => noTriple r
  | [] => true

/-- Restricted patterns: every character from the safe alphabet and no
triple star. -/
def OKPat (p : List Char) : Prop :=
  (∀ c ∈ p, okChar c = true) ∧ noTriple p = true

/-- Subjects on which the dot model is exact: single-code-unit
characters that are not line terminators. -/
def OKPath (s : List Char) : Prop :=
  ∀ c ∈ s, c.val < 65536 ∧ cmatch .dot c = true

/-! ### Rewriting lemmas for the replacement passes -/

/-- Fuel irrelevance: any fuel at least the subject length computes the
same replacement as the canonical fuel. -/
theorem replaceAllF_fuel (pat repl : List Char) :
    ∀ f : Nat, ∀ g ≤ f, ∀ s : List Char, s.length ≤ g →
      replaceAllF pat repl g s = replaceAllF pat repl s.length s := by
  intro f
  induction f with
  | zero =>
    intro g hg s hs
    interval_cases g
    have : s = [] := List.length_eq_zero.mp (Nat.le_zero.mp hs)
    subst this
    rfl
  | succ f ih =>
    intro g hg s hs
    rcases Nat.lt_or_ge g (f + 1) with hlt | hge
    · exact ih g (Nat.lt_succ_iff.mp hlt) s hs
    · have hgeq : g = f + 1 := Nat.le_antisymm hg hge
      subst hgeq
      cases s with
      | nil => rfl
      | cons c cs =>
        simp only [replaceAllF]
        by_cases hb : pat ≠ [] ∧ pat.isPrefixOf (c :: cs)
        · rw [if_pos hb, if_pos hb]
          have hss : cs.length + 1 ≤ f + 1 := by simpa using hs
          have hd := List.length_drop (pat.length - 1) cs
          have h1 : (cs.drop (pat.length - 1)).length ≤ f := by omega
          have h2 : (cs.drop (pat.length - 1)).length ≤ cs.length := by omega
          rw [ih f (Nat.le_refl f) _ h1, ih cs.length (by omega) _ h2]
        · rw [if_neg hb, if_neg hb]
          have hss : cs.length + 1 ≤ f + 1 := by simpa using hs
          have hcs : cs.length ≤ f := by omega
          rw [ih f (Nat.le_refl f) cs hcs, ih cs.length hcs cs (Nat.le_refl _)]

/-- Skipping one character that does not begin an occurrence. -/
theorem replaceAll_skip (pat repl : List Char) (c : Char) (cs : List Char)
    (h : ¬ pat.isPrefixOf (c :: cs)) :
    replaceAll pat repl (c :: cs) = c :: replaceAll pat repl cs := by
  unfold replaceAll
  simp only [List.length_cons, replaceAllF]
  rw [if_neg (by tauto)]

/-- Taking one occurrence of the pattern at the head. -/
theorem replaceAll_take (pat repl t : List Char) (hne : pat ≠ []) :
    replaceAll pat repl (pat ++ t) = repl ++ replaceAll pat repl t := by
  obtain ⟨p0, pr, hp⟩ : ∃ p0 pr, pat = p0 :: pr := by
    cases pat with
    | nil => exact absurd rfl hne
    | cons a b => exact ⟨a, b, rfl⟩
  subst hp
  unfold replaceAll
  have hlen : ((p0 :: pr) ++ t).length = (pr ++ t).length + 1 := by simp
  rw [hlen]
  show replaceAllF (p0 :: pr) repl ((pr ++ t).length + 1) (p0 :: (pr ++ t)) = _
  rw [replaceAllF]
  have hcond : p0 :: pr ≠ [] ∧ (p0 :: pr).isPrefixOf (p0 :: (pr ++ t)) := by
    refine ⟨by simp, ?_⟩
    rw [List.isPrefixOf_iff_prefix]
    exact ⟨t, by simp⟩
  rw [if_pos hcond]
  have hdrop : (pr ++ t).drop ((p0 :: pr).length - 1) = t := by
    simp
  rw [hdrop]
  congr 1
  have ht : t.length ≤ (pr ++ t).length := by simp
  exact replaceAllF_fuel (p0 :: pr) repl (pr ++ t).length (pr ++ t).length
    (Nat.le_refl _) t ht

/-- No occurrence of `pat` starts inside `x` (also not one that runs on
into `y`). -/
def NoTouch (pat x y : List Char) : Prop :=
  ∀ i < x.length, ¬ pat.isPrefixOf (x.drop i ++ y)

/-- Replacement passes over a region it never touches. -/
theorem replaceAll_noTouch (pat repl : List Char) :
    ∀ x y : List Char, NoTouch pat x y →
      replaceAll pat repl (x ++ y) = x ++ replaceAll pat repl y := by
  intro x
  induction x with
  | nil => intro y _; rfl
  | cons c cs ih =>
    intro y hnt
    have h0 : ¬ pat.isPrefixOf (c :: (cs ++ y)) := by
      have := hnt 0 (by simp)
      simpa using this
    have hnt2 : NoTouch pat cs y := by
      unfold NoTouch
      intro i hi
      have := hnt (i + 1) (by simpa using Nat.succ_lt_succ hi)
      simpa using this
    rw [List.cons_append, replaceAll_skip pat repl c (cs ++ y) h0, ih y hnt2]
    rfl

/-- A region none of whose characters is the head of the pattern is
untouched. -/
theorem noTouch_of_head (p0 : Char) (pr x y : List Char)
    (h : ∀ c ∈ x, c ≠ p0) : NoTouch (p0 :: pr) x y := by
  unfold NoTouch
  intro i hi hpre
  rw [List.isPrefixOf_iff_prefix] at hpre
  obtain ⟨t, ht⟩ := hpre
  have hget : x.drop i = x.get ⟨i, hi⟩ :: x.drop (i + 1) :=
    List.drop_eq_getElem_cons hi
  rw [hget, List.cons_append, List.cons_append] at ht
  injection ht with h1 _
  exact h _ (List.get_mem x i hi) h1.symm

/-- A pure per-character pass distributes over append (escape pass). -/
theorem escapePass_append (x y : List Char) :
    escapePass (x ++ y) = escapePass x ++ escapePass y := by
  induction x with
  | nil => rfl
  | cons c cs ih => simp [escapePass, ih]

/-- A pure per-character pass distributes over append (star pass). -/
theorem starPass_append (x y : List Char) :
    starPass (x ++ y) = starPass x ++ starPass y := by
  induction x with
  | nil => rfl
  | cons c cs ih => simp [starPass, ih]
/-! ### Token renderings at the intermediate compilation stages -/

/-- Raw text of one token (stage 0, before any pass). -/
def render0 : GTok → List Char
  | .lit c => [c]
  | .star => ['*']
  | .dstar => ['*', '*']
  | .dstarSlash => ['*', '*', '/']

/-- Rendering after the double-star-slash pass. -/
def render2 : GTok → List Char
  | .lit c => [c]
  | .star => ['*']
  | .dstar => ['*', '*']
  | .dstarSlash => phDir

/-- Rendering after both placeholder passes. -/
def renderA : GTok → List Char
  | .lit c => [c]
  | .star => ['*']
  | .dstar => phDS
  | .dstarSlash => phDir

/-- Rendering after the escape pass. -/
def renderB : GTok → List Char
  | .lit c => if c ∈ escSpecials then ['\\', c] else [c]
  | .star => ['*']
  | .dstar => phDS
  | .dstarSlash => phDir

/-- Rendering after the star pass. -/
def renderC : GTok → List Char
  | .lit c => if c ∈ escSpecials then ['\\', c] else [c]
  | .star => ['[', '^', '/', ']', '*']
  | .dstar => phDS
  | .dstarSlash => phDir

/-- Rendering after the directory-placeholder restoration. -/
def renderD : GTok → List Char
  | .lit c => if c ∈ escSpecials then ['\\', c] else [c]
  | .star => ['[', '^', '/', ']', '*']
  | .dstar => phDS
  | .dstarSlash => groupDir

/-- Literal tokens of a restricted pattern are safe characters and
never a star. -/
def litOK (toks : List GTok) : Prop :=
  ∀ t ∈ toks, ∀ c : Char, t = GTok.lit c → okChar c = true ∧ c ≠ '*'

/-- Whether a token begins with a star in its raw text. -/
def starHead : GTok → Bool
  | .lit _ => false
  | _ => true

/-- Adjacency discipline of greedy tokenisation: after one star no
star-led token follows; after a double star no star-led token and no
literal slash follows. -/
def adjOK : GTok → GTok → Prop
  | .star, b => starHead b = false
  | .dstar, b => starHead b = false ∧ b ≠ .lit '/'
  | _, _ => True

/-! ### Tokeniser lemmas -/

/-- A non-star head character is skipped by the triple-star test. -/
theorem noTriple_cons_ne (c : Char) (r : List Char) (hc : c ≠ '*') :
    noTriple (c :: r) = noTriple r := by
  rw [noTriple.eq_def]
  split
  · rename_i heq
    injection heq with h1 _
    exact absurd h1 hc
  · rename_i heq
    injection heq with _ h2
    rw [h2]
  · rename_i heq
    exact absurd heq (by simp)

/-- A star head whose tail does not begin with two stars is skipped by
the triple-star test. -/
theorem noTriple_star (r : List Char) (h : ∀ r2, r ≠ '*' :: '*' :: r2) :
    noTriple ('*' :: r) = noTriple r := by
  rw [noTriple.eq_def]
  split
  · rename_i heq
    injection heq with _ h2
    exact absurd h2 (h _)
  · rename_i heq
    injection heq with _ h2
    rw [h2]
  · rename_i heq
    exact absurd heq (by simp)

/-- Tokenising a string that does not begin with a star produces a
literal head token. -/
theorem gtokenize_lit (c : Char) (r : List Char) (hc : c ≠ '*') :
    gtokenize (c :: r) = .lit c :: gtokenize r := by
  rw [gtokenize.eq_def]
  split
  · rename_i heq
    injection heq with h1 _
    exact absurd h1 hc
  · rename_i heq
    injection heq with h1 _
    exact absurd h1 hc
  · rename_i heq
    injection heq with h1 _
    exact absurd h1 hc
  · rename_i heq
    injection heq with h1 h2
    rw [h1, h2]
  · rename_i heq
    exact absurd heq (by simp)

/-- Tokenising a single star before a star-free tail. -/
theorem gtokenize_star (r : List Char) (h : ∀ r2, r ≠ '*' :: r2) :
    gtokenize ('*' :: r) = .star :: gtokenize r := by
  rw [gtokenize.eq_def]
  split
  · rename_i heq
    injection heq with _ h2
    exact absurd h2 (h _)
  · rename_i heq
    injection heq with _ h2
    exact absurd h2 (h _)
  · rename_i heq
    injection heq with _ h2
    rw [h2]
  · rename_i hx heq
    injection heq with h1 _
    exact absurd h1.symm hx
  · rename_i heq
    exact absurd heq (by simp)

/-- Tokenising a double star before a slash-free tail. -/
theorem gtokenize_dstar (r : List Char) (h : ∀ r2, r ≠ '/' :: r2) :
    gtokenize ('*' :: '*' :: r) = .dstar :: gtokenize r := by
  rw [gtokenize.eq_def]
  split
  · rename_i heq
    injection heq with _ h2
    injection h2 with _ h3
    exact absurd h3 (h _)
  · rename_i heq
    injection heq with _ h2
    injection h2 with _ h3
    rw [h3]
  · rename_i hns2 heq
    injection heq with _ h2
    exact absurd h2.symm (hns2 _)
  · rename_i hx heq
    injection heq with h1 _
    exact absurd h1.symm hx
  · rename_i heq
    exact absurd heq (by simp)

/-- The raw texts of the tokens reassemble the pattern. -/
theorem gtokenize_flatten (p : List Char) :
    ((gtokenize p).map render0).flatten = p := by
  induction p using gtokenize.induct with
  | case1 r ih =>
    show ((GTok.dstarSlash :: gtokenize r).map render0).flatten = _
    simp [render0, ih]
  | case2 r hns ih =>
    rw [gtokenize_dstar r (fun r2 he => hns r2 he)]
    simp [render0, ih]
  | case3 r hns1 hns ih =>
    rw [gtokenize_star r (fun r2 he => hns r2 he)]
    simp [render0, ih]
  | case4 c r h1 h2 hc ih =>
    rw [gtokenize_lit c r (fun he => hc he)]
    simp [render0, ih]
  | case5 => rfl

/-- Over a safe pattern every literal token is a safe non-star
character. -/
theorem gtokenize_litOK (p : List Char) (hch : ∀ c ∈ p, okChar c = true) :
    litOK (gtokenize p) := by
  induction p using gtokenize.induct with
  | case1 r ih =>
    show litOK (GTok.dstarSlash :: gtokenize r)
    intro t ht c htc
    rcases List.mem_cons.mp ht with h | h
    · rw [h] at htc
      exact absurd htc (fun he => GTok.noConfusion he)
    · exact ih (fun d hd => hch d (by simp [hd])) t h c htc
  | case2 r hns ih =>
    rw [gtokenize_dstar r (fun r2 he => hns r2 he)]
    intro t ht c htc
    rcases List.mem_cons.mp ht with h | h
    · rw [h] at htc
      exact absurd htc (fun he => GTok.noConfusion he)
    · exact ih (fun d hd => hch d (by simp [hd])) t h c htc
  | case3 r hns1 hns ih =>
    rw [gtokenize_star r (fun r2 he => hns r2 he)]
    intro t ht c htc
    rcases List.mem_cons.mp ht with h | h
    · rw [h] at htc
      exact absurd htc (fun he => GTok.noConfusion he)
    · exact ih (fun d hd => hch d (by simp [hd])) t h c htc
  | case4 c r h1 h2 hc ih =>
    rw [gtokenize_lit c r (fun he => hc he)]
    intro t ht d htd
    rcases List.mem_cons.mp ht with h | h
    · rw [h] at htd
      injection htd with hcd
      rw [← hcd]
      exact ⟨hch c (by simp), fun he => hc he⟩
    · exact ih (fun d2 hd => hch d2 (by simp [hd])) t h d htd
  | case5 =>
    intro t ht
    exact absurd ht (by simp [gtokenize])

/-- The head token of a tokenised tail that does not begin with a star
is not star-led. -/
theorem gtokenize_head_not_star (r : List Char) (h : ∀ r2, r ≠ '*' :: r2) :
    ∀ b ∈ (gtokenize r).head?, starHead b = false := by
  cases r with
  | nil => intro b hb; exact absurd hb (by simp [gtokenize])
  | cons c r2 =>
    have hc : c ≠ '*' := fun he => h r2 (by rw [he])
    rw [gtokenize_lit c r2 hc]
    intro b hb
    simp only [List.head?_cons, Option.mem_def, Option.some.injEq] at hb
    rw [← hb]
    rfl

/-- Greedy tokenisation satisfies the adjacency discipline on patterns
without triple stars. -/
theorem gtokenize_adj (p : List Char) (hnt : noTriple p = true) :
    List.Chain' adjOK (gtokenize p) := by
  induction p using gtokenize.induct with
  | case1 r ih =>
    show List.Chain' adjOK (GTok.dstarSlash :: gtokenize r)
    rw [List.chain'_cons']
    have e1 : noTriple ('*' :: '*' :: '/' :: r) = noTriple ('*' :: '/' :: r) :=
      noTriple_star ('*' :: '/' :: r) (fun r2 he => by
        injection he with _ h2
        injection h2 with h3 _
        exact absurd h3 (by decide))
    have e2 : noTriple ('*' :: '/' :: r) = noTriple ('/' :: r) :=
      noTriple_star ('/' :: r) (fun r2 he => by
        injection he with h1 _
        exact absurd h1 (by decide))
    have hr : noTriple r = true := by
      rw [e1, e2, noTriple_cons_ne '/' r (by decide)] at hnt
      exact hnt
    exact ⟨fun b _ => trivial, ih hr⟩
  | case2 r hns ih =>
    rw [gtokenize_dstar r (fun r2 he => hns r2 he)]
    have hrs : ∀ r2, r ≠ '*' :: r2 := by
      intro r2 he
      rw [he] at hnt
      exact absurd hnt (by simp [noTriple])
    have e1 : noTriple ('*' :: '*' :: r) = noTriple ('*' :: r) :=
      noTriple_star ('*' :: r) (fun r2 he => by
        injection he with _ h2
        exact hrs r2 h2)
    have e2 : noTriple ('*' :: r) = noTriple r :=
      noTriple_star r (fun r2 he => hrs ('*' :: r2) he)
    have hr : noTriple r = true := by
      rw [e1, e2] at hnt
      exact hnt
    rw [List.chain'_cons']
    refine ⟨?_, ih hr⟩
    intro b hb
    refine ⟨gtokenize_head_not_star r hrs b hb, ?_⟩
    rcases r with _ | ⟨c, r2⟩
    · exact absurd hb (by simp [gtokenize])
    · have hc : c ≠ '*' := fun he => hrs r2 (by rw [he])
      rw [gtokenize_lit c r2 hc] at hb
      simp only [List.head?_cons, Option.mem_def, Option.some.injEq] at hb
      rw [← hb]
      intro he
      injection he with hce
      exact hns r2 (by rw [hce])
  | case3 r hns1 hns ih =>
    have hrs : ∀ r2, r ≠ '*' :: r2 := fun r2 he => hns r2 he
    rw [gtokenize_star r hrs]
    have hr : noTriple r = true := by
      rw [noTriple_star r (fun r2 he => hrs ('*' :: r2) he)] at hnt
      exact hnt
    rw [List.chain'_cons']
    exact ⟨fun b hb => gtokenize_head_not_star r hrs b hb, ih hr⟩
  | case4 c r h1 h2 hc ih =>
    rw [gtokenize_lit c r (fun he => hc he)]
    have hr : noTriple r = true := by
      rwa [noTriple_cons_ne c r (fun he => hc he)] at hnt
    rw [List.chain'_cons']
    exact ⟨fun b _ => trivial, ih hr⟩
  | case5 => exact List.chain'_nil
/-! ### Character facts and the per-character passes -/

/-- A safe character differs from any unsafe one. -/
theorem okChar_not (c : Char) (h : okChar c = true) (d : Char)
    (hd : okChar d = false) : c ≠ d := by
  intro he
  rw [he, hd] at h
  exact Bool.false_ne_true h

/-- The escape pass distributes over append of flattened pieces. -/
theorem escapePass_flatten (xs : List (List Char)) :
    escapePass xs.flatten = (xs.map escapePass).flatten := by
  induction xs with
  | nil => rfl
  | cons x rest ih => simp [escapePass_append, ih]

/-- The star pass distributes over append of flattened pieces. -/
theorem starPass_flatten (xs : List (List Char)) :
    starPass xs.flatten = (xs.map starPass).flatten := by
  induction xs with
  | nil => rfl
  | cons x rest ih => simp [starPass_append, ih]

/-- Escaping one rendered token. -/
theorem renderB_eq (t : GTok) : escapePass (renderA t) = renderB t := by
  cases t with
  | lit c =>
    by_cases hc : c ∈ escSpecials <;> simp [escapePass, renderA, renderB, hc]
  | star => decide
  | dstar => decide
  | dstarSlash => decide

/-- Star-expanding one escaped token (literal tokens are not stars). -/
theorem renderC_eq (t : GTok) (h : ∀ c : Char, t = .lit c → c ≠ '*') :
    starPass (renderB t) = renderC t := by
  cases t with
  | lit c =>
    have hc : c ≠ '*' := h c rfl
    by_cases hm : c ∈ escSpecials <;>
      simp [starPass, renderB, renderC, hm, hc]
  | star => decide
  | dstar => decide
  | dstarSlash => decide

/-- The escape pass on a flattened token rendering. -/
theorem pass4_flat (toks : List GTok) :
    escapePass ((toks.map renderA).flatten) = (toks.map renderB).flatten := by
  rw [escapePass_flatten, List.map_map]
  congr 1
  exact List.map_congr_left (fun t _ => renderB_eq t)

/-- The star pass on a flattened token rendering. -/
theorem pass5_flat (toks : List GTok) (hlit : litOK toks) :
    starPass ((toks.map renderB).flatten) = (toks.map renderC).flatten := by
  rw [starPass_flatten, List.map_map]
  congr 1
  exact List.map_congr_left
    (fun t ht => renderC_eq t (fun c htc => (hlit t ht c htc).2))
/-- After one star the next token, if any, is a safe non-star
literal. -/
theorem head_after_star (rest : List GTok) (hlit : litOK rest)
    (hhd : ∀ b ∈ rest.head?, adjOK .star b) :
    rest = [] ∨ ∃ c2 rest2, rest = .lit c2 :: rest2 ∧ okChar c2 = true ∧
      c2 ≠ '*' := by
  cases rest with
  | nil => exact Or.inl rfl
  | cons t2 rest2 =>
    have hh := hhd t2 (by simp)
    cases t2 with
    | lit c2 =>
      obtain ⟨hok, hs⟩ := hlit (.lit c2) (by simp) c2 rfl
      exact Or.inr ⟨c2, rest2, rfl, hok, hs⟩
    | star => simp [adjOK, starHead] at hh
    | dstar => simp [adjOK, starHead] at hh
    | dstarSlash => simp [adjOK, starHead] at hh

/-- After a double star the next token, if any, is a safe literal that
is neither a star nor a slash. -/
theorem head_after_dstar (rest : List GTok) (hlit : litOK rest)
    (hhd : ∀ b ∈ rest.head?, adjOK .dstar b) :
    rest = [] ∨ ∃ c2 rest2, rest = .lit c2 :: rest2 ∧ okChar c2 = true ∧
      c2 ≠ '*' ∧ c2 ≠ '/' := by
  cases rest with
  | nil => exact Or.inl rfl
  | cons t2 rest2 =>
    have hh := hhd t2 (by simp)
    cases t2 with
    | lit c2 =>
      obtain ⟨hok, hs⟩ := hlit (.lit c2) (by simp) c2 rfl
      refine Or.inr ⟨c2, rest2, rfl, hok, hs, ?_⟩
      intro he
      exact hh.2 (by rw [he])
    | star => simp [adjOK, starHead] at hh
    | dstar => simp [adjOK, starHead] at hh
    | dstarSlash => simp [adjOK, starHead] at hh

/-- The double-star-slash pass on a flattened token rendering. -/
theorem pass2_flat (toks : List GTok) (hadj : List.Chain' adjOK toks)
    (hlit : litOK toks) :
    replaceAll ['*', '*', '/'] phDir ((toks.map render0).flatten)
      = (toks.map render2).flatten := by
  induction toks with
  | nil => rfl
  | cons t rest ih =>
    obtain ⟨hhd, htl⟩ := List.chain'_cons'.mp hadj
    have hlit2 : litOK rest := fun u hu => hlit u (List.mem_cons_of_mem _ hu)
    have ihr := ih htl hlit2
    simp only [List.map_cons, List.flatten_cons]
    cases t with
    | dstarSlash =>
      rw [show render0 .dstarSlash = ['*', '*', '/'] from rfl,
        replaceAll_take _ _ _ (by decide), ihr]
      rfl
    | lit c =>
      obtain ⟨hok, hstar⟩ := hlit (.lit c) (by simp) c rfl
      have hnt : NoTouch ['*', '*', '/'] [c] ((rest.map render0).flatten) :=
        noTouch_of_head '*' ['*', '/'] [c] _ (by
          intro d hd
          rw [List.mem_singleton] at hd
          rw [hd]; exact hstar)
      rw [show render0 (.lit c) = [c] from rfl,
        replaceAll_noTouch _ _ [c] _ hnt, ihr]
      rfl
    | star =>
      have hnt : NoTouch ['*', '*', '/'] ['*'] ((rest.map render0).flatten) := by
        unfold NoTouch
        intro i hi
        simp only [List.length_cons, List.length_nil] at hi
        interval_cases i
        rcases head_after_star rest hlit2 hhd with hr | ⟨c2, rest2, hr, hok2, hs2⟩
        · subst hr; decide
        · subst hr
          have h2 : ('*' == c2) = false := by
            simp only [beq_eq_false_iff_ne]
            exact fun he => hs2 he.symm
          simp [List.isPrefixOf, render0, h2]
      rw [show render0 .star = ['*'] from rfl,
        replaceAll_noTouch _ _ ['*'] _ hnt, ihr]
      rfl
    | dstar =>
      have hnt : NoTouch ['*', '*', '/'] ['*', '*']
          ((rest.map render0).flatten) := by
        unfold NoTouch
        intro i hi
        simp only [List.length_cons, List.length_nil] at hi
        rcases head_after_dstar rest hlit2 hhd with hr | ⟨c2, rest2, hr, hok2, hs2, hsl2⟩
        · subst hr
          interval_cases i <;> decide
        · subst hr
          have h2 : ('*' == c2) = false := by
            simp only [beq_eq_false_iff_ne]
            exact fun he => hs2 he.symm
          have h3 : ('/' == c2) = false := by
            simp only [beq_eq_false_iff_ne]
            exact fun he => hsl2 he.symm
          interval_cases i <;> simp [List.isPrefixOf, render0, h2, h3]
      rw [show render0 .dstar = ['*', '*'] from rfl,
        replaceAll_noTouch _ _ ['*', '*'] _ hnt, ihr]
      rfl

/-- The double-star pass on a flattened token rendering. -/
theorem pass3_flat (toks : List GTok) (hadj : List.Chain' adjOK toks)
    (hlit : litOK toks) :
    replaceAll ['*', '*'] phDS ((toks.map render2).flatten)
      = (toks.map renderA).flatten := by
  induction toks with
  | nil => rfl
  | cons t rest ih =>
    obtain ⟨hhd, htl⟩ := List.chain'_cons'.mp hadj
    have hlit2 : litOK rest := fun u hu => hlit u (List.mem_cons_of_mem _ hu)
    have ihr := ih htl hlit2
    simp only [List.map_cons, List.flatten_cons]
    cases t with
    | dstar =>
      rw [show render2 .dstar = ['*', '*'] from rfl,
        replaceAll_take _ _ _ (by decide), ihr]
      rfl
    | dstarSlash =>
      have hnt : NoTouch ['*', '*'] phDir ((rest.map render2).flatten) :=
        noTouch_of_head '*' ['*'] phDir _ (by decide)
      rw [show render2 .dstarSlash = phDir from rfl,
        replaceAll_noTouch _ _ phDir _ hnt, ihr]
      rfl
    | lit c =>
      obtain ⟨hok, hstar⟩ := hlit (.lit c) (by simp) c rfl
      have hnt : NoTouch ['*', '*'] [c] ((rest.map render2).flatten) :=
        noTouch_of_head '*' ['*'] [c] _ (by
          intro d hd
          rw [List.mem_singleton] at hd
          rw [hd]; exact hstar)
      rw [show render2 (.lit c) = [c] from rfl,
        replaceAll_noTouch _ _ [c] _ hnt, ihr]
      rfl
    | star =>
      have hnt : NoTouch ['*', '*'] ['*'] ((rest.map render2).flatten) := by
        unfold NoTouch
        intro i hi
        simp only [List.length_cons, List.length_nil] at hi
        interval_cases i
        rcases head_after_star rest hlit2 hhd with hr | ⟨c2, rest2, hr, hok2, hs2⟩
        · subst hr; decide
        · subst hr
          have h2 : ('*' == c2) = false := by
            simp only [beq_eq_false_iff_ne]
            exact fun he => hs2 he.symm
          simp [List.isPrefixOf, render2, h2]
      rw [show render2 .star = ['*'] from rfl,
        replaceAll_noTouch _ _ ['*'] _ hnt, ihr]
      rfl

/-- The directory-placeholder restoration pass. -/
theorem pass6_flat (toks : List GTok) (hadj : List.Chain' adjOK toks)
    (hlit : litOK toks) :
    replaceAll phDir groupDir ((toks.map renderC).flatten)
      = (toks.map renderD).flatten := by
  induction toks with
  | nil => rfl
  | cons t rest ih =>
    obtain ⟨hhd, htl⟩ := List.chain'_cons'.mp hadj
    have hlit2 : litOK rest := fun u hu => hlit u (List.mem_cons_of_mem _ hu)
    have ihr := ih htl hlit2
    simp only [List.map_cons, List.flatten_cons]
    cases t with
    | dstarSlash =>
      rw [show renderC .dstarSlash = phDir from rfl,
        replaceAll_take _ _ _ (by decide), ihr]
      rfl
    | lit c =>
      obtain ⟨hok, hstar⟩ := hlit (.lit c) (by simp) c rfl
      have hcol : c ≠ ':' := okChar_not c hok ':' (by decide)
      by_cases hm : c ∈ escSpecials
      · have hx : renderC (.lit c) = ['\\', c] := by simp [renderC, hm]
        have hnt : NoTouch phDir ['\\', c] ((rest.map renderC).flatten) :=
          noTouch_of_head ':' _ ['\\', c] _ (by
            intro d hd
            rcases List.mem_cons.mp hd with h | h
            · rw [h]; decide
            · rw [List.mem_singleton] at h
              rw [h]; exact hcol)
        rw [hx, replaceAll_noTouch _ _ ['\\', c] _ hnt, ihr]
        simp [renderD, hm]
      · have hx : renderC (.lit c) = [c] := by simp [renderC, hm]
        have hnt : NoTouch phDir [c] ((rest.map renderC).flatten) :=
          noTouch_of_head ':' _ [c] _ (by
            intro d hd
            rw [List.mem_singleton] at hd
            rw [hd]; exact hcol)
        rw [hx, replaceAll_noTouch _ _ [c] _ hnt, ihr]
        simp [renderD, hm]
    | star =>
      have hnt : NoTouch phDir ['[', '^', '/', ']', '*']
          ((rest.map renderC).flatten) :=
        noTouch_of_head ':' _ ['[', '^', '/', ']', '*'] _ (by decide)
      rw [show renderC .star = ['[', '^', '/', ']', '*'] from rfl,
        replaceAll_noTouch _ _ ['[', '^', '/', ']', '*'] _ hnt, ihr]
      rfl
    | dstar =>
      have hnt : NoTouch phDir phDS ((rest.map renderC).flatten) := by
        unfold NoTouch
        intro i hi
        simp only [phDS, List.length_cons, List.length_nil] at hi
        rcases head_after_dstar rest hlit2 hhd with hr | ⟨c2, rest2, hr, hok2, hs2, hsl2⟩
        · subst hr
          interval_cases i <;> decide
        · subst hr
          have h4 : ('D' == c2) = false := by
            simp only [beq_eq_false_iff_ne]
            exact fun he => okChar_not c2 hok2 'D' (by decide) he.symm
          have h5 : ((':' : Char) == c2) = false := by
            simp only [beq_eq_false_iff_ne]
            exact fun he => okChar_not c2 hok2 ':' (by decide) he.symm
          by_cases hm2 : c2 ∈ escSpecials
          · interval_cases i <;>
              simp [List.isPrefixOf, renderC, phDir, phDS, hm2]
          · interval_cases i <;>
              simp [List.isPrefixOf, renderC, phDir, phDS, hm2, h4, h5]
      rw [show renderC .dstar = phDS from rfl,
        replaceAll_noTouch _ _ phDS _ hnt, ihr]
      rfl

/-- The double-star-placeholder restoration pass yields the final
rendering. -/
theorem pass7_flat (toks : List GTok) (hadj : List.Chain' adjOK toks)
    (hlit : litOK toks) :
    replaceAll phDS ['.', '*'] ((toks.map renderD).flatten)
      = (toks.map renderTok).flatten := by
  induction toks with
  | nil => rfl
  | cons t rest ih =>
    obtain ⟨hhd, htl⟩ := List.chain'_cons'.mp hadj
    have hlit2 : litOK rest := fun u hu => hlit u (List.mem_cons_of_mem _ hu)
    have ihr := ih htl hlit2
    simp only [List.map_cons, List.flatten_cons]
    cases t with
    | dstar =>
      rw [show renderD .dstar = phDS from rfl,
        replaceAll_take _ _ _ (by decide), ihr]
      rfl
    | dstarSlash =>
      have hnt : NoTouch phDS groupDir ((rest.map renderD).flatten) := by
        unfold NoTouch
        intro i hi
        simp only [groupDir, List.length_cons, List.length_nil] at hi
        interval_cases i <;> simp [List.isPrefixOf, phDS, groupDir]
      rw [show renderD .dstarSlash = groupDir from rfl,
        replaceAll_noTouch _ _ groupDir _ hnt, ihr]
      rfl
    | lit c =>
      obtain ⟨hok, hstar⟩ := hlit (.lit c) (by simp) c rfl
      have hcol : c ≠ ':' := okChar_not c hok ':' (by decide)
      by_cases hm : c ∈ escSpecials
      · have hx : renderD (.lit c) = ['\\', c] := by simp [renderD, hm]
        have hnt : NoTouch phDS ['\\', c] ((rest.map renderD).flatten) :=
          noTouch_of_head ':' _ ['\\', c] _ (by
            intro d hd
            rcases List.mem_cons.mp hd with h | h
            · rw [h]; decide
            · rw [List.mem_singleton] at h
              rw [h]; exact hcol)
        rw [hx, replaceAll_noTouch _ _ ['\\', c] _ hnt, ihr]
        simp [renderTok, hm]
      · have hx : renderD (.lit c) = [c] := by simp [renderD, hm]
        have hnt : NoTouch phDS [c] ((rest.map renderD).flatten) :=
          noTouch_of_head ':' _ [c] _ (by
            intro d hd
            rw [List.mem_singleton] at hd
            rw [hd]; exact hcol)
        rw [hx, replaceAll_noTouch _ _ [c] _ hnt, ihr]
        simp [renderTok, hm]
    | star =>
      have hnt : NoTouch phDS ['[', '^', '/', ']', '*']
          ((rest.map renderD).flatten) :=
        noTouch_of_head ':' _ ['[', '^', '/', ']', '*'] _ (by decide)
      rw [show renderD .star = ['[', '^', '/', ']', '*'] from rfl,
        replaceAll_noTouch _ _ ['[', '^', '/', ']', '*'] _ hnt, ihr]
      rfl

/-- A subject without backslashes is unchanged by the first pass. -/
theorem replaceAll_id (p0 : Char) (pr repl : List Char) (s : List Char)
    (h : ∀ c ∈ s, c ≠ p0) : replaceAll (p0 :: pr) repl s = s := by
  have := replaceAll_noTouch (p0 :: pr) repl s []
    (noTouch_of_head p0 pr s [] h)
  simpa [replaceAll, replaceAllF] using this

/-- The compiled regular-expression source of a safe pattern is the
anchored concatenation of the final token renderings. -/
theorem globToRegExp_render (p : List Char) (hp : OKPat p) :
    globToRegExp p = '^' :: ((gtokenize p).map renderTok).flatten ++ ['$'] := by
  obtain ⟨hch, hnt⟩ := hp
  have hadj := gtokenize_adj p hnt
  have hlit := gtokenize_litOK p hch
  have h1 : replaceAll ['\\'] ['/'] p = ((gtokenize p).map render0).flatten := by
    rw [replaceAll_id '\\' [] ['/'] p
      (fun c hc => okChar_not c (hch c hc) '\\' (by decide))]
    exact (gtokenize_flatten p).symm
  show '^' :: replaceAll phDS ['.', '*'] (replaceAll phDir groupDir (starPass
      (escapePass (replaceAll ['*', '*'] phDS (replaceAll ['*', '*', '/'] phDir
        (replaceAll ['\\'] ['/'] p)))))) ++ ['$'] = _
  rw [h1, pass2_flat _ hadj hlit, pass3_flat _ hadj hlit, pass4_flat _,
    pass5_flat _ hlit, pass6_flat _ hadj hlit, pass7_flat _ hadj hlit]
/-! ### Parser correctness on compiled sources -/

/-- Parser step: the no-slash class with its star quantifier. -/
theorem parseSeq_step_star (x : List Char) (acc : List RE)
    (stk : List (List RE)) :
    parseSeq ('[' :: '^' :: '/' :: ']' :: '*' :: x) acc stk
      = parseSeq x (RE.rep .nslash :: acc) stk := rfl

/-- Parser step: the dot with its star quantifier. -/
theorem parseSeq_step_dstar (x : List Char) (acc : List RE)
    (stk : List (List RE)) :
    parseSeq ('.' :: '*' :: x) acc stk
      = parseSeq x (RE.rep .dot :: acc) stk := rfl

/-- Parser step: opening a non-capturing group. -/
theorem parseSeq_step_open (x : List Char) (acc : List RE)
    (stk : List (List RE)) :
    parseSeq ('(' :: '?' :: ':' :: x) acc stk
      = parseSeq x [] (acc :: stk) := rfl

/-- Parser step: closing an optional group. -/
theorem parseSeq_step_close (x : List Char) (acc top : List RE)
    (stk : List (List RE)) :
    parseSeq (')' :: '?' :: x) acc (top :: stk)
      = parseSeq x (RE.alt (seqList acc.reverse) RE.eps :: top) stk := rfl

/-- Parser step: a slash immediately before a closing group. -/
theorem parseSeq_step_slash_close (x : List Char) (acc : List RE)
    (stk : List (List RE)) :
    parseSeq ('/' :: ')' :: '?' :: x) acc stk
      = parseSeq (')' :: '?' :: x) (RE.one (.lit '/') :: acc) stk := rfl

/-- Parser step: the end anchor. -/
theorem parseSeq_step_end (acc : List RE) :
    parseSeq ['$'] acc [] = some acc.reverse := rfl

set_option maxHeartbeats 4000000 in
/-- Parser step: a plain literal character followed by no quantifier. -/
theorem parseSeq_plain (c : Char) (rest : List Char) (acc : List RE)
    (stk : List (List RE))
    (h1 : c ≠ '$') (h2 : c ≠ ')') (h3 : c ≠ '(') (h4 : c ≠ '\\')
    (h5 : c ≠ '[') (h6 : c ≠ '.') (h7 : c ≠ '*') (h8 : c ≠ '?')
    (hr : ∀ d, rest.head? = some d → d ≠ '*' ∧ d ≠ '?') :
    parseSeq (c :: rest) acc stk
      = parseSeq rest (RE.one (.lit c) :: acc) stk := by
  rw [parseSeq.eq_def]
  split <;> simp_all

set_option maxHeartbeats 4000000 in
/-- Parser step: an escaped literal character followed by no
quantifier. -/
theorem parseSeq_esc (d : Char) (rest : List Char) (acc : List RE)
    (stk : List (List RE))
    (hr : ∀ e, rest.head? = some e → e ≠ '*' ∧ e ≠ '?') :
    parseSeq ('\\' :: d :: rest) acc stk
      = parseSeq rest (RE.one (.lit d) :: acc) stk := by
  rw [parseSeq.eq_def]
  split <;> first
    | (simp_all; done)
    | (simp_all
       obtain ⟨he1, he2⟩ := ‹_ ∧ _›
       try (obtain ⟨he2a, he2b⟩ := he2; subst he2a; subst he2b)
       try subst he2
       try subst he1
       simp_all)

/-- The first character after a token boundary is never a
quantifier. -/
theorem flat_render_head (toks : List GTok) (hlit : litOK toks) :
    ∀ d, (((toks.map renderTok).flatten) ++ ['$']).head? = some d →
      d ≠ '*' ∧ d ≠ '?' := by
  cases toks with
  | nil =>
    intro d hd
    simp only [List.map_nil, List.flatten_nil, List.nil_append,
      List.head?_cons, Option.some.injEq] at hd
    rw [← hd]
    exact ⟨by decide, by decide⟩
  | cons t rest =>
    intro d hd
    cases t with
    | lit c =>
      obtain ⟨hok, hstar⟩ := hlit (.lit c) (by simp) c rfl
      by_cases hm : c ∈ escSpecials
      · simp only [List.map_cons, List.flatten_cons, renderTok, if_pos hm,
          List.cons_append, List.head?_cons, Option.some.injEq] at hd
        rw [← hd]
        exact ⟨by decide, by decide⟩
      · simp only [List.map_cons, List.flatten_cons, renderTok, if_neg hm,
          List.cons_append, List.head?_cons, Option.some.injEq] at hd
        rw [← hd]
        exact ⟨hstar, okChar_not c hok '?' (by decide)⟩
    | star =>
      simp only [List.map_cons, List.flatten_cons, renderTok,
        List.cons_append, List.head?_cons, Option.some.injEq] at hd
      rw [← hd]
      exact ⟨by decide, by decide⟩
    | dstar =>
      simp only [List.map_cons, List.flatten_cons, renderTok,
        List.cons_append, List.head?_cons, Option.some.injEq] at hd
      rw [← hd]
      exact ⟨by decide, by decide⟩
    | dstarSlash =>
      simp only [List.map_cons, List.flatten_cons, renderTok,
        List.cons_append, List.head?_cons, Option.some.injEq] at hd
      rw [← hd]
      exact ⟨by decide, by decide⟩

/-- Parsing the concatenated final renderings of the tokens, ended by
the dollar anchor, yields exactly the token regular expressions. -/
theorem parseSeq_render (toks : List GTok) (hlit : litOK toks) :
    ∀ acc : List RE,
      parseSeq (((toks.map renderTok).flatten) ++ ['$']) acc []
        = some (acc.reverse ++ toks.map tokRE) := by
  induction toks with
  | nil =>
    intro acc
    show parseSeq ['$'] acc [] = _
    rw [parseSeq_step_end]
    simp
  | cons t rest ih =>
    have hlit2 : litOK rest := fun u hu => hlit u (List.mem_cons_of_mem _ hu)
    have hr := flat_render_head rest hlit2
    intro acc
    simp only [List.map_cons, List.flatten_cons, List.append_assoc]
    cases t with
    | star =>
      show parseSeq ('[' :: '^' :: '/' :: ']' :: '*' ::
        ((rest.map renderTok).flatten ++ ['$'])) acc [] = _
      rw [parseSeq_step_star, ih hlit2]
      simp [tokRE]
    | dstar =>
      show parseSeq ('.' :: '*' ::
        ((rest.map renderTok).flatten ++ ['$'])) acc [] = _
      rw [parseSeq_step_dstar, ih hlit2]
      simp [tokRE]
    | dstarSlash =>
      show parseSeq ('(' :: '?' :: ':' :: '.' :: '*' :: '/' :: ')' :: '?' ::
        ((rest.map renderTok).flatten ++ ['$'])) acc [] = _
      rw [parseSeq_step_open, parseSeq_step_dstar, parseSeq_step_slash_close,
        parseSeq_step_close, ih hlit2]
      simp [tokRE, seqList]
    | lit c =>
      obtain ⟨hok, hstar⟩ := hlit (.lit c) (by simp) c rfl
      by_cases hm : c ∈ escSpecials
      · show parseSeq ((if c ∈ escSpecials then ['\\', c] else [c]) ++
          ((rest.map renderTok).flatten ++ ['$'])) acc [] = _
        rw [if_pos hm]
        show parseSeq ('\\' :: c ::
          ((rest.map renderTok).flatten ++ ['$'])) acc [] = _
        rw [parseSeq_esc c _ acc [] hr, ih hlit2]
        simp [tokRE]
      · show parseSeq ((if c ∈ escSpecials then ['\\', c] else [c]) ++
          ((rest.map renderTok).flatten ++ ['$'])) acc [] = _
        rw [if_neg hm]
        show parseSeq (c ::
          ((rest.map renderTok).flatten ++ ['$'])) acc [] = _
        rw [parseSeq_plain c _ acc []
          (fun he => hm (by rw [he]; decide))
          (fun he => hm (by rw [he]; decide))
          (fun he => hm (by rw [he]; decide))
          (fun he => hm (by rw [he]; decide))
          (fun he => hm (by rw [he]; decide))
          (fun he => hm (by rw [he]; decide))
          hstar
          (okChar_not c hok '?' (by decide))
          hr, ih hlit2]
        simp [tokRE]
/-! ### The token regular expressions implement the specification
reading -/

/-- Over subjects without line terminators, matching the concatenated
token regular expressions coincides with the specification-level
matching relation. -/
theorem tokMatch_iff_rmatch (toks : List GTok) :
    ∀ s : List Char, (∀ c ∈ s, cmatch .dot c = true) →
      ((seqList (toks.map tokRE)).rmatch s = true ↔ TokMatch toks s) := by
  induction toks with
  | nil =>
    intro s hs
    show RE.eps.rmatch s = true ↔ _
    rw [RE.eps_rmatch_iff]
    exact Iff.rfl
  | cons t rest ih =>
    intro s hs
    show (RE.seq (tokRE t) (seqList (rest.map tokRE))).rmatch s = true ↔ _
    rw [RE.seq_rmatch_iff]
    cases t with
    | lit c =>
      constructor
      · rintro ⟨t1, u, hsplit, h1, h2⟩
        rw [show tokRE (.lit c) = RE.one (.lit c) from rfl,
          RE.one_rmatch_iff] at h1
        obtain ⟨a, ha, hca⟩ := h1
        have hac : c = a := by simpa [cmatch] using hca
        subst ha
        subst hac
        refine ⟨u, by rw [hsplit]; rfl, ?_⟩
        exact (ih u (fun d hd => hs d (by
          rw [hsplit]; exact List.mem_append_right _ hd))).mp h2
      · rintro ⟨s2, hs2, hm⟩
        refine ⟨[c], s2, by rw [hs2]; rfl, ?_, ?_⟩
        · rw [show tokRE (.lit c) = RE.one (.lit c) from rfl,
            RE.one_rmatch_iff]
          exact ⟨c, rfl, by simp [cmatch]⟩
        · exact (ih s2 (fun d hd => hs d (by
            rw [hs2]; exact List.mem_cons_of_mem _ hd))).mpr hm
    | star =>
      constructor
      · rintro ⟨t1, u, hsplit, h1, h2⟩
        rw [show tokRE .star = RE.rep .nslash from rfl,
          RE.rep_rmatch_iff] at h1
        refine ⟨t1, u, hsplit, ?_, ?_⟩
        · intro d hd
          have := h1 d hd
          simpa [cmatch] using this
        · exact (ih u (fun d hd => hs d (by
            rw [hsplit]; exact List.mem_append_right _ hd))).mp h2
      · rintro ⟨u, v, hsplit, hns, hm⟩
        refine ⟨u, v, hsplit, ?_, ?_⟩
        · rw [show tokRE .star = RE.rep .nslash from rfl,
            RE.rep_rmatch_iff]
          intro d hd
          simpa [cmatch] using hns d hd
        · exact (ih v (fun d hd => hs d (by
            rw [hsplit]; exact List.mem_append_right _ hd))).mpr hm
    | dstar =>
      constructor
      · rintro ⟨t1, u, hsplit, h1, h2⟩
        exact ⟨t1, u, hsplit, (ih u (fun d hd => hs d (by
          rw [hsplit]; exact List.mem_append_right _ hd))).mp h2⟩
      · rintro ⟨u, v, hsplit, hm⟩
        refine ⟨u, v, hsplit, ?_, ?_⟩
        · rw [show tokRE .dstar = RE.rep .dot from rfl, RE.rep_rmatch_iff]
          intro d hd
          exact hs d (by rw [hsplit]; exact List.mem_append_left _ hd)
        · exact (ih v (fun d hd => hs d (by
            rw [hsplit]; exact List.mem_append_right _ hd))).mpr hm
    | dstarSlash =>
      constructor
      · rintro ⟨t1, u, hsplit, h1, h2⟩
        rw [show tokRE .dstarSlash
            = RE.alt (RE.seq (RE.rep .dot) (RE.seq (RE.one (.lit '/'))
              RE.eps)) RE.eps from rfl,
          RE.alt_rmatch_iff] at h1
        rcases h1 with h1 | h1
        · rw [RE.seq_rmatch_iff] at h1
          obtain ⟨a, b, hab, hda, h1b⟩ := h1
          rw [RE.seq_rmatch_iff] at h1b
          obtain ⟨b1, b2, hb, hone, heps⟩ := h1b
          rw [RE.one_rmatch_iff] at hone
          obtain ⟨e, he, hce⟩ := hone
          have hec : '/' = e := by simpa [cmatch] using hce
          rw [RE.eps_rmatch_iff] at heps
          subst he
          subst heps
          rw [← hec] at hb
          refine Or.inr ⟨a, u, ?_, ?_⟩
          · rw [hsplit, hab, hb]
            simp
          · exact (ih u (fun d hd => hs d (by
              rw [hsplit]; exact List.mem_append_right _ hd))).mp h2
        · rw [RE.eps_rmatch_iff] at h1
          subst h1
          rw [List.nil_append] at hsplit
          subst hsplit
          exact Or.inl ((ih s hs).mp h2)
      · rintro (hm | ⟨u, v, hsplit, hm⟩)
        · refine ⟨[], s, rfl, ?_, ?_⟩
          · rw [show tokRE .dstarSlash
                = RE.alt (RE.seq (RE.rep .dot) (RE.seq (RE.one (.lit '/'))
                  RE.eps)) RE.eps from rfl,
              RE.alt_rmatch_iff]
            exact Or.inr (RE.eps_rmatch_iff [] |>.mpr rfl)
          · exact (ih s hs).mpr hm
        · refine ⟨u ++ ['/'], v, by rw [hsplit]; simp, ?_, ?_⟩
          · rw [show tokRE .dstarSlash
                = RE.alt (RE.seq (RE.rep .dot) (RE.seq (RE.one (.lit '/'))
                  RE.eps)) RE.eps from rfl,
              RE.alt_rmatch_iff]
            refine Or.inl ?_
            rw [RE.seq_rmatch_iff]
            refine ⟨u, ['/'], rfl, ?_, ?_⟩
            · rw [RE.rep_rmatch_iff]
              intro d hd
              exact hs d (by
                rw [hsplit]
                exact List.mem_append_left _ hd)
            · rw [RE.seq_rmatch_iff]
              refine ⟨['/'], [], rfl, ?_, RE.eps_rmatch_iff [] |>.mpr rfl⟩
              rw [RE.one_rmatch_iff]
              exact ⟨'/', rfl, by simp [cmatch]⟩
          · exact (ih v (fun d hd => hs d (by
              rw [hsplit]
              exact List.mem_append_right _ (List.mem_cons_of_mem _ hd)))).mpr hm
instance (p : List Char) : Decidable (OKPat p) :=
  inferInstanceAs (Decidable ((∀ c ∈ p, okChar c = true) ∧ noTriple p = true))

instance (s : List Char) : Decidable (OKPath s) :=
  inferInstanceAs (Decidable (∀ c ∈ s, c.val < 65536 ∧ cmatch .dot c = true))

/-- Over safe patterns and subjects, the compiled glob predicate
coincides with the specification reading of the four constructs. -/
theorem globTest_iff_spec (p s : List Char) (hp : OKPat p) (hs : OKPath s) :
    globTest p s = true ↔ SpecGlobMatch p s := by
  have hlit := gtokenize_litOK p hp.1
  have hpr := parseSeq_render (gtokenize p) hlit []
  unfold globTest
  rw [globToRegExp_render p hp]
  show (match parseSeq (((gtokenize p).map renderTok).flatten ++ ['$']) [] []
        with
      | some items => (seqList items).rmatch s
      | none => false) = true ↔ _
  rw [hpr]
  show (seqList ((gtokenize p).map tokRE)).rmatch s = true ↔ _
  exact tokMatch_iff_rmatch (gtokenize p) s (fun c hc => (hs c hc).2)

/-- C5: over glob patterns built from safe literal characters (lower
case letters, digits, dot, dash, underscore, slash) and the star
constructs, with no triple star, and over forward-slash paths of
single-code-unit characters without line terminators, the compiled
matcher is anchored and realises exactly the specified construct
semantics: `*` within one segment, `**/` zero or more leading
directory segments, `**` across segments, other characters literally;
in particular the four documented examples behave as claimed. -/
theorem C5_glob_pattern_semantics (p s : List Char) (hp : OKPat p)
    (hs : OKPath s) :
    (globTest p s = true ↔ SpecGlobMatch p s) ∧
    globTest (("**/*.md").toList) (("docs/readme.md").toList) = true ∧
    globTest (("**/*.md").toList) (("readme.md").toList) = true ∧
    globTest (("**/*.md").toList) (("readme.txt").toList) = false ∧
    globTest (("modules/*.md").toList) (("modules/x.md").toList) = true ∧
    globTest (("modules/*.md").toList) (("modules/sub/x.md").toList) = false := by
  refine ⟨globTest_iff_spec p s hp hs, ?_, ?_, ?_, ?_, ?_⟩ <;> decide

/-- Witness for C5 at the pattern of the first documented example. -/
theorem C5_glob_pattern_semantics_witness :
    (OKPat (("**/*.md").toList) ∧ OKPath (("docs/readme.md").toList)) ∧
    (globTest (("**/*.md").toList) (("docs/readme.md").toList) = true ↔
      SpecGlobMatch (("**/*.md").toList) (("docs/readme.md").toList)) :=
  ⟨⟨by decide, by decide⟩,
    (C5_glob_pattern_semantics (("**/*.md").toList) (("docs/readme.md").toList)
      (by decide) (by decide)).1⟩

/-- C5 counterexample: the question mark is not in the escaped class,
so it survives as a regex quantifier; the pattern letter-a, question
mark, letter-b matches the two-character path ab and fails to match
the literal three-character path, while the specification reading
(every non-star character matched literally) says the opposite. -/
theorem C5_counterexample_question_mark :
    globTest (("a?b").toList) (("ab").toList) = true ∧
    globTest (("a?b").toList) (("a?b").toList) = false ∧
    SpecGlobMatch (("a?b").toList) (("a?b").toList) ∧
    ¬ SpecGlobMatch (("a?b").toList) (("ab").toList) := by
  refine ⟨by decide, by decide, ?_, ?_⟩
  · show TokMatch [.lit 'a', .lit '?', .lit 'b'] (("a?b").toList)
    exact ⟨['?', 'b'], rfl, ['b'], rfl, [], rfl, rfl⟩
  · intro h
    obtain ⟨s2, hs2, h2⟩ := h
    injection hs2 with _ hs2b
    subst hs2b
    obtain ⟨s3, hs3, _⟩ := h2
    injection hs3 with h31 _
    exact absurd h31 (by decide)

/-! ### The file-selection engine (claims C6 and C10) -/

/-- A workspace entry: a file or a directory with its children, in
`fs.readdir` order. -/
inductive FSEntry
  | file (name : List Char)
  | dir (name : List Char) (children : List FSEntry)

mutual
/-- Depth-first walk of `collectFiles` (`src/boilit.ts` lines 546-562):
relative forward-slash paths of all files under one entry, skipping
directories named `.git` at any depth. -/
def walkEntry : List Char → FSEntry → List (List Char)
  | pre, .file n => [pre ++ n]
  | pre, .dir n ch =>
    if n = ('.' :: 'g' :: 'i' :: 't' :: []) then []
    else walkList (pre ++ n ++ ['/']) ch
/-- Depth-first walk over a directory listing, in `fs.readdir` order. -/
def walkList : List Char → List FSEntry → List (List Char)
  | _, [] => []
  | pre, e :: es => walkEntry pre e ++ walkList pre es
end

/-- The walk from the repository root. -/
def walkAll (tree : List FSEntry) : List (List Char) :=
  walkList [] tree

/-- Embedding of `collectFiles` (`src/boilit.ts` lines 539-564): the
files of the walk whose relative path matches some include pattern. -/
def collectFiles (tree : List FSEntry) (patterns : List String) :
    List (List Char) :=
  (walkAll tree).filter (fun rel =>
    patterns.any (fun p => globTest (p.toList) rel))

/-- One planned copy, source relative to the repository root. -/
structure CopyItem where
  src : List Char
  dest : List Char
deriving DecidableEq

/-- `path.join` of a destination base and a relative path. -/
def joinP (base rel : List Char) : List Char := base ++ '/' :: rel

/-- Embedding of the `addCopies` closure of `copyToTarget`
(`src/boilit.ts` lines 221-236): append matches not filtered by the
ignore patterns, deduplicated against the `added` key set (the key is
the source-destination pair). -/
def addCopies (tree : List FSEntry) (includes ignores : List String)
    (destBase : List Char)
    (st : List CopyItem × List (List Char × List Char)) :
    List CopyItem × List (List Char × List Char) :=
  (collectFiles tree includes).foldl (fun st2 rel =>
    if ignores.any (fun pat => globTest (pat.toList) rel) then st2
    else
      let dest := joinP destBase rel
      if (rel, dest) ∈ st2.2 then st2
      else (st2.1 ++ [⟨rel, dest⟩], st2.2 ++ [(rel, dest)])) st

/-- The per-module step of `copyToTarget` (`src/boilit.ts` lines
244-253): modules declaring a non-empty `files` array contribute their
matches under their destination base, filtered by the default ignore
patterns followed by the module ignore patterns.  A JavaScript empty
string for `path` is falsy, hence the length test. -/
def moduleStep (cfg : Option BoilItConfig) (tree : List FSEntry)
    (tgt : List Char) (defaultIgnore : List String)
    (st : List CopyItem × List (List Char × List Char)) (m : String) :
    List CopyItem × List (List Char × List Char) :=
  match cfg.bind (fun c => lookupMod c.modules m) with
  | none => st
  | some md =>
    match md.files with
    | some fs =>
      if fs.length > 0 then
        let destBase := match md.path with
          | some p => if p.length > 0 then joinP tgt (p.toList) else tgt
          | none => tgt
        addCopies tree fs (defaultIgnore ++ md.ignore.getD []) destBase st
      else st
    | none => st

/-- `cfg?.default?.files`. -/
def defaultFilesOf (cfg : Option BoilItConfig) : Option (List String) :=
  (cfg.bind (fun c => c.defaultCfg)).bind (fun d => d.files)

/-- `cfg?.default?.ignore || []` (an empty array is truthy in
JavaScript, so a present empty array is kept). -/
def defaultIgnoreOf (cfg : Option BoilItConfig) : List String :=
  ((cfg.bind (fun c => c.defaultCfg)).bind (fun d => d.ignore)).getD []

/-- The truthiness test `cfg?.modules[m]?.files && files.length > 0`
from the `anyModuleHasFiles` computation (`src/boilit.ts` line 238). -/
def moduleHasFiles (cfg : Option BoilItConfig) (m : String) : Bool :=
  match cfg.bind (fun c => lookupMod c.modules m) with
  | some md =>
    match md.files with
    | some fs => fs.length > 0
    | none => false
  | none => false

/-- The contribution of the `default.files` branch (`src/boilit.ts`
lines 240-242), starting from the empty plan and empty `added` set. -/
def defaultStart (cfg : Option BoilItConfig) (tree : List FSEntry)
    (tgt : List Char) : List CopyItem × List (List Char × List Char) :=
  match defaultFilesOf cfg with
  | some fs =>
    if fs.length > 0 then addCopies tree fs (defaultIgnoreOf cfg) tgt ([], [])
    else ([], [])
  | none => ([], [])

/-- The fallback branch (`src/boilit.ts` lines 255-265): when no
`default.files` array is present (even an empty one is truthy) and no
requested module declares a non-empty `files` array, copy everything,
applying the default ignore patterns only when at least one is present,
with no `added`-set deduplication. -/
def fallbackPlan (cfg : Option BoilItConfig) (tree : List FSEntry)
    (tgt : List Char) (modulesToApply : List String) : List CopyItem :=
  match defaultFilesOf cfg with
  | some _ => []
  | none =>
    if modulesToApply.any (moduleHasFiles cfg) then []
    else
      (collectFiles tree [("**/*" : String), ("*" : String)]).filterMap
        (fun rel =>
          if (defaultIgnoreOf cfg).length > 0 ∧
              (defaultIgnoreOf cfg).any (fun pat => globTest (pat.toList) rel)
          then none
          else some (⟨rel, joinP tgt rel⟩ : CopyItem))

/-- Embedding of `copyToTarget` (`src/boilit.ts` lines 210-271): the
copy plan in push order; the default-files contribution, then the
per-module contributions threading the shared `added` set, then the
fallback. -/
def copyToTarget (cfg : Option BoilItConfig) (tree : List FSEntry)
    (tgt : List Char) (modulesToApply : List String) : List CopyItem :=
  (modulesToApply.foldl (moduleStep cfg tree tgt (defaultIgnoreOf cfg))
    (defaultStart cfg tree tgt)).1 ++ fallbackPlan cfg tree tgt modulesToApply
/-- Any path splits as a slash-free last segment after an optional
slash-terminated prefix. -/
theorem last_seg_split (rel : List Char) :
    (∀ c ∈ rel, c ≠ '/') ∨
      ∃ u v, rel = u ++ '/' :: v ∧ ∀ c ∈ v, c ≠ '/' := by
  induction rel with
  | nil => exact Or.inl (by simp)
  | cons c cs ih =>
    rcases ih with h | ⟨u, v, he, hv⟩
    · by_cases hc : c = '/'
      · subst hc
        exact Or.inr ⟨[], cs, rfl, h⟩
      · refine Or.inl ?_
        intro d hd
        rcases List.mem_cons.mp hd with h1 | h1
        · rw [h1]; exact hc
        · exact h d h1
    · exact Or.inr ⟨c :: u, v, by rw [he]; rfl, hv⟩

/-- A slash-free path matches a lone star token list. -/
theorem tokMatch_star_full (x : List Char) (h : ∀ c ∈ x, c ≠ '/') :
    TokMatch [.star] x :=
  ⟨x, [], by simp, h, rfl⟩

/-- The include pattern of the copy-everything fallback matches every
path, under the specification reading. -/
theorem specGlobMatch_all (rel : List Char) :
    SpecGlobMatch (("**/*").toList) rel := by
  show TokMatch [GTok.dstarSlash, GTok.star] rel
  rcases last_seg_split rel with h | ⟨u, v, he, hv⟩
  · exact Or.inl (tokMatch_star_full rel h)
  · exact Or.inr ⟨u, v, he, tokMatch_star_full v hv⟩

/-- The fallback include patterns select the whole walk. -/
theorem collect_all_eq_walk (tree : List FSEntry)
    (hok : ∀ rel ∈ walkAll tree, OKPath rel) :
    collectFiles tree [("**/*" : String), ("*" : String)] = walkAll tree := by
  unfold collectFiles
  rw [List.filter_eq_self]
  intro rel hrel
  have h1 : globTest (("**/*").toList) rel = true :=
    (globTest_iff_spec (("**/*").toList) rel (by decide) (hok rel hrel)).mpr
      (specGlobMatch_all rel)
  simp only [List.any_cons, List.any_nil, Bool.or_false, Bool.or_eq_true]
  exact Or.inl h1

/-- The fallback filter keeps exactly the paths not matched by any
default ignore pattern (an empty pattern list keeps everything). -/
theorem fallback_filterMap (tgt : List Char) (igs : List String)
    (l : List (List Char)) :
    (l.filterMap (fun rel =>
        if igs.length > 0 ∧ igs.any (fun pat => globTest (pat.toList) rel)
        then none
        else some (⟨rel, joinP tgt rel⟩ : CopyItem)))
      = (l.filter (fun rel =>
          !(igs.any (fun pat => globTest (pat.toList) rel)))).map
          (fun rel => ⟨rel, joinP tgt rel⟩) := by
  induction l with
  | nil => rfl
  | cons rel l ih =>
    by_cases h : igs.any (fun pat => globTest (pat.toList) rel) = true
    · have hlen : igs.length > 0 := by
        cases igs with
        | nil => simp at h
        | cons a b => simp
      have e1 : (if igs.length > 0 ∧
            igs.any (fun pat => globTest (pat.toList) rel) then none
          else some (⟨rel, joinP tgt rel⟩ : CopyItem)) = none :=
        if_pos ⟨hlen, h⟩
      rw [List.filterMap_cons, e1, List.filter_cons_of_neg (by rw [h]; decide)]
      exact ih
    · have hcond : ¬(igs.length > 0 ∧
          (igs.any (fun pat => globTest (pat.toList) rel)) = true) :=
        fun hc => h hc.2
      have e1 : (if igs.length > 0 ∧
            igs.any (fun pat => globTest (pat.toList) rel) then none
          else some (⟨rel, joinP tgt rel⟩ : CopyItem))
          = some (⟨rel, joinP tgt rel⟩ : CopyItem) := if_neg hcond
      have hf : (igs.any (fun pat => globTest (pat.toList) rel)) = false :=
        Bool.eq_false_iff.mpr h
      rw [List.filterMap_cons, e1, List.filter_cons_of_pos (by rw [hf]; decide),
        List.map_cons]
      exact congrArg (List.cons _) ih

/-- Modules without a `files` array contribute nothing to the plan. -/
theorem moduleStep_const (cfg : Option BoilItConfig) (tree : List FSEntry)
    (tgt : List Char) (digs : List String) (mods : List String)
    (hmf : ∀ m ∈ mods, ∀ md,
      cfg.bind (fun c => lookupMod c.modules m) = some md → md.files = none) :
    ∀ st, mods.foldl (moduleStep cfg tree tgt digs) st = st := by
  induction mods with
  | nil => intro st; rfl
  | cons m mods ih =>
    intro st
    rw [List.foldl_cons]
    have hstep : moduleStep cfg tree tgt digs st m = st := by
      unfold moduleStep
      cases hl : cfg.bind (fun c => lookupMod c.modules m) with
      | none => rfl
      | some md =>
        have hfile := hmf m (by simp) md hl
        simp only [hfile]
    rw [hstep]
    exact ih (fun m2 hm2 md hl => hmf m2 (by simp [hm2]) md hl) st

/-- Modules without a `files` array do not satisfy the
`anyModuleHasFiles` test. -/
theorem anyFiles_false (cfg : Option BoilItConfig) (mods : List String)
    (hmf : ∀ m ∈ mods, ∀ md,
      cfg.bind (fun c => lookupMod c.modules m) = some md → md.files = none) :
    mods.any (moduleHasFiles cfg) = false := by
  rw [List.any_eq_false]
  intro m hm
  unfold moduleHasFiles
  cases hl : cfg.bind (fun c => lookupMod c.modules m) with
  | none => simp
  | some md =>
    have hfile := hmf m hm md hl
    simp [hfile]

/-- C6: when neither the defaults nor any requested module declares
include patterns, the copy plan is exactly the walk of the workspace
(which skips the version-control directory), each file once, destined
under the target root, filtered by the default ignore patterns only
when such patterns are present. -/
theorem C6_no_includes_copies_everything (cfg : Option BoilItConfig)
    (tree : List FSEntry) (tgt : List Char) (mods : List String)
    (hdf : defaultFilesOf cfg = none)
    (hmf : ∀ m ∈ mods, ∀ md,
      cfg.bind (fun c => lookupMod c.modules m) = some md → md.files = none)
    (hok : ∀ rel ∈ walkAll tree, OKPath rel)
    (hnd : (walkAll tree).Nodup) :
    copyToTarget cfg tree tgt mods
      = ((walkAll tree).filter (fun rel =>
          !((defaultIgnoreOf cfg).any
            (fun pat => globTest (pat.toList) rel)))).map
          (fun rel => ⟨rel, joinP tgt rel⟩) ∧
    ((copyToTarget cfg tree tgt mods).map CopyItem.src).Nodup ∧
    ((cfg.bind (fun c => c.defaultCfg)).bind (fun d => d.ignore) = none →
      copyToTarget cfg tree tgt mods
        = (walkAll tree).map (fun rel => ⟨rel, joinP tgt rel⟩)) := by
  have hds : defaultStart cfg tree tgt = ([], []) := by
    unfold defaultStart
    rw [hdf]
  have hfb : fallbackPlan cfg tree tgt mods
      = ((walkAll tree).filter (fun rel =>
          !((defaultIgnoreOf cfg).any
            (fun pat => globTest (pat.toList) rel)))).map
          (fun rel => ⟨rel, joinP tgt rel⟩) := by
    unfold fallbackPlan
    rw [hdf, anyFiles_false cfg mods hmf]
    rw [if_neg (by simp), collect_all_eq_walk tree hok, fallback_filterMap]
  have hplan : copyToTarget cfg tree tgt mods
      = ((walkAll tree).filter (fun rel =>
          !((defaultIgnoreOf cfg).any
            (fun pat => globTest (pat.toList) rel)))).map
          (fun rel => ⟨rel, joinP tgt rel⟩) := by
    unfold copyToTarget
    rw [hds, moduleStep_const cfg tree tgt _ mods hmf, hfb]
    rfl
  refine ⟨hplan, ?_, ?_⟩
  · rw [hplan, List.map_map]
    have : (CopyItem.src ∘ fun rel => (⟨rel, joinP tgt rel⟩ : CopyItem))
        = id := rfl
    rw [this, List.map_id]
    exact hnd.filter _
  · intro hig
    have higd : defaultIgnoreOf cfg = [] := by
      unfold defaultIgnoreOf
      rw [hig]
      rfl
    rw [hplan, higd]
    simp
/-! ### Empty arrays and the ignore field (claim C10) -/

/-- Replace a present-but-empty module `ignore` array by an absent
one. -/
def clearIg (m : Module) : Module :=
  { m with ignore := if m.ignore = some [] then none else m.ignore }

/-- Replace every present-but-empty `ignore` array of a configuration,
at module level and at default level, by an absent one. -/
def clearEmptyIgnores (cfg : BoilItConfig) : BoilItConfig :=
  { cfg with
    modules := cfg.modules.map (fun p => (p.1, clearIg p.2)),
    defaultCfg := cfg.defaultCfg.map (fun d =>
      { d with ignore := if d.ignore = some [] then none else d.ignore }) }

theorem clearIg_refs (m : Module) : (clearIg m).refs = m.refs := rfl

theorem clearIg_files (m : Module) : (clearIg m).files = m.files := rfl

theorem clearIg_deps (m : Module) :
    (clearIg m).dependencies = m.dependencies := rfl

theorem clearIg_path (m : Module) : (clearIg m).path = m.path := rfl

theorem clearIg_ignore_getD (m : Module) :
    (clearIg m).ignore.getD [] = m.ignore.getD [] := by
  unfold clearIg
  by_cases h : m.ignore = some []
  · rw [if_pos h, h]
    rfl
  · rw [if_neg h]

/-- Property lookup in a per-module-transformed record. -/
theorem lookupMod_map (f : Module → Module) (mods : List (String × Module))
    (d : String) :
    lookupMod (mods.map (fun p => (p.1, f p.2))) d
      = (lookupMod mods d).map f := by
  induction mods with
  | nil => rfl
  | cons p mods ih =>
    by_cases h : (p.1 == d) = true
    · simp [lookupMod, List.find?_cons, h]
    · simp only [lookupMod, List.map_cons, List.find?_cons] at *
      simp only [h]
      exact ih

theorem namesOf_map (f : Module → Module) (mods : List (String × Module)) :
    namesOf (mods.map (fun p => (p.1, f p.2))) = namesOf mods := by
  simp [namesOf]

/-- Cycle detection is independent of per-module changes that preserve
the dependency lists. -/
theorem detectDepsAux_congr (mods : List (String × Module))
    (f : Module → Module) (hf : ∀ m, (f m).dependencies = m.dependencies)
    (rec rec2 : String → List String → Option (Option (List String)))
    (hrec : ∀ d dds, rec d dds = rec2 d dds) :
    ∀ ds, detectDepsAux (mods.map (fun p => (p.1, f p.2))) rec ds
      = detectDepsAux mods rec2 ds := by
  have hre : rec = rec2 := funext (fun d => funext (fun dds => hrec d dds))
  subst hre
  intro ds
  induction ds with
  | nil => rfl
  | cons d ds ih =>
    unfold detectDepsAux
    rw [namesOf_map, lookupMod_map]
    by_cases h : (namesOf mods).contains d
    · rw [if_pos h, if_pos h]
      cases hl : lookupMod mods d with
      | none => exact ih
      | some md =>
        show (match (f md).dependencies with
              | some dds =>
                match rec d dds with
                | none => none
                | some (some c) => some (some c)
                | some none =>
                  detectDepsAux
                    (mods.map (fun p : String × Module => (p.1, f p.2))) rec ds
              | none =>
                detectDepsAux
                  (mods.map (fun p : String × Module => (p.1, f p.2))) rec ds)
            = _
        rw [hf md]
        show _ = (match md.dependencies with
              | some dds =>
                match rec d dds with
                | none => none
                | some (some c) => some (some c)
                | some none => detectDepsAux mods rec ds
              | none => detectDepsAux mods rec ds)
        cases md.dependencies with
        | none => exact ih
        | some dds =>
          show (match rec d dds with
                | none => none
                | some (some c) => some (some c)
                | some none =>
                  detectDepsAux
                    (mods.map (fun p : String × Module => (p.1, f p.2))) rec ds)
              = (match rec d dds with
                | none => none
                | some (some c) => some (some c)
                | some none => detectDepsAux mods rec ds)
          cases rec d dds with
          | none => rfl
          | some r =>
            cases r with
            | none => exact ih
            | some c => rfl
    · rw [if_neg h, if_neg h]
      exact ih

/-- Fuelled cycle detection under a dependency-preserving module
transformation. -/
theorem detectF_congr (mods : List (String × Module)) (f : Module → Module)
    (hf : ∀ m, (f m).dependencies = m.dependencies) :
    ∀ fuel n deps path,
      detectF (mods.map (fun p => (p.1, f p.2))) fuel n deps path
        = detectF mods fuel n deps path := by
  intro fuel
  induction fuel with
  | zero => intro n deps path; rfl
  | succ fuel ih =>
    intro n deps path
    unfold detectF
    by_cases h : path.contains n
    · rw [if_pos h, if_pos h]
    · rw [if_neg h, if_neg h]
      exact detectDepsAux_congr mods f hf _ _
        (fun d dds => ih d dds (path ++ [n])) deps

/-- The dependency block ignores the `ignore` field. -/
theorem checkDepBlock_clear (mods : List (String × Module)) (n : String)
    (m : Module) (avail : List String) :
    checkDepBlock (mods.map (fun p => (p.1, clearIg p.2))) n (clearIg m) avail
      = checkDepBlock mods n m avail := by
  unfold checkDepBlock
  rw [clearIg_deps]
  cases m.dependencies with
  | none => rfl
  | some deps =>
    have hdc : detectCircularDependency (mods.map (fun p => (p.1, clearIg p.2)))
        n deps avail = detectCircularDependency mods n deps avail := by
      unfold detectCircularDependency
      rw [detectF_congr mods clearIg clearIg_deps]
    show (match checkDepList n avail deps with
          | .error e => Except.error e
          | .ok _ =>
            match detectCircularDependency
                (mods.map (fun p : String × Module => (p.1, clearIg p.2)))
                n deps avail with
            | some cycle => Except.error (.circularDependency cycle n)
            | none => Except.ok ())
        = (match checkDepList n avail deps with
          | .error e => Except.error e
          | .ok _ =>
            match detectCircularDependency mods n deps avail with
            | some cycle => Except.error (.circularDependency cycle n)
            | none => Except.ok ())
    rw [hdc]

/-- The empty-array checks ignore the `ignore` field. -/
theorem checkEmptyArrays_clear (n : String) (m : Module) :
    checkEmptyArrays n (clearIg m) = checkEmptyArrays n m := by
  unfold checkEmptyArrays
  rw [clearIg_refs, clearIg_files, clearIg_deps]

/-- Whole-module validation ignores the `ignore` field. -/
theorem validateModule_clear (mods : List (String × Module)) (n : String)
    (m : Module) (avail : List String) :
    validateModule (mods.map (fun p => (p.1, clearIg p.2))) n (clearIg m) avail
      = validateModule mods n m avail := by
  unfold validateModule
  rw [checkDepBlock_clear, checkEmptyArrays_clear]

theorem validateModulesGo_clear (mods : List (String × Module))
    (avail : List String) :
    ∀ rest, validateModulesGo (mods.map (fun p => (p.1, clearIg p.2))) avail
        (rest.map (fun p => (p.1, clearIg p.2)))
      = validateModulesGo mods avail rest := by
  intro rest
  induction rest with
  | nil => rfl
  | cons p rest ih =>
    show validateModulesGo _ avail ((p.1, clearIg p.2) :: _) = _
    unfold validateModulesGo
    rw [validateModule_clear]
    cases validateModule mods p.1 p.2 avail with
    | error e => rfl
    | ok u => exact ih

/-- Configuration validation is unchanged when present-but-empty
`ignore` arrays are dropped. -/
theorem validateConfig_clear (cfg : BoilItConfig) :
    validateConfig (clearEmptyIgnores cfg) = validateConfig cfg := by
  unfold validateConfig clearEmptyIgnores
  simp only []
  rw [namesOf_map]
  by_cases h : (findDuplicates (namesOf cfg.modules)).isEmpty
  · rw [if_pos h, if_pos h, validateModulesGo_clear]
  · rw [if_neg h, if_neg h]

theorem defaultFilesOf_clear (cfg : BoilItConfig) :
    defaultFilesOf (some (clearEmptyIgnores cfg)) = defaultFilesOf (some cfg) := by
  unfold defaultFilesOf clearEmptyIgnores
  cases hd : cfg.defaultCfg with
  | none => simp [hd]
  | some d => simp [hd]

theorem defaultIgnoreOf_clear (cfg : BoilItConfig) :
    defaultIgnoreOf (some (clearEmptyIgnores cfg)) = defaultIgnoreOf (some cfg) := by
  unfold defaultIgnoreOf clearEmptyIgnores
  cases hd : cfg.defaultCfg with
  | none => simp [hd]
  | some d =>
    by_cases h : d.ignore = some []
    · simp [hd, h]
    · simp [hd, h]

theorem moduleHasFiles_clear (cfg : BoilItConfig) (m : String) :
    moduleHasFiles (some (clearEmptyIgnores cfg)) m
      = moduleHasFiles (some cfg) m := by
  unfold moduleHasFiles clearEmptyIgnores
  simp only [Option.some_bind]
  rw [lookupMod_map]
  cases lookupMod cfg.modules m with
  | none => rfl
  | some md =>
    simp only [Option.map_some']
    rw [clearIg_files]

theorem moduleStep_clear (cfg : BoilItConfig) (tree : List FSEntry)
    (tgt : List Char) (digs : List String)
    (st : List CopyItem × List (List Char × List Char)) (m : String) :
    moduleStep (some (clearEmptyIgnores cfg)) tree tgt digs st m
      = moduleStep (some cfg) tree tgt digs st m := by
  unfold moduleStep clearEmptyIgnores
  simp only [Option.some_bind]
  rw [lookupMod_map]
  cases lookupMod cfg.modules m with
  | none => rfl
  | some md =>
    simp only [Option.map_some']
    rw [clearIg_files]
    cases md.files with
    | none => rfl
    | some fs =>
      rw [clearIg_path, clearIg_ignore_getD]

theorem defaultStart_clear (cfg : BoilItConfig) (tree : List FSEntry)
    (tgt : List Char) :
    defaultStart (some (clearEmptyIgnores cfg)) tree tgt
      = defaultStart (some cfg) tree tgt := by
  unfold defaultStart
  rw [defaultFilesOf_clear, defaultIgnoreOf_clear]

theorem fallbackPlan_clear (cfg : BoilItConfig) (tree : List FSEntry)
    (tgt : List Char) (req : List String) :
    fallbackPlan (some (clearEmptyIgnores cfg)) tree tgt req
      = fallbackPlan (some cfg) tree tgt req := by
  unfold fallbackPlan
  rw [defaultFilesOf_clear, defaultIgnoreOf_clear]
  cases defaultFilesOf (some cfg) with
  | some fs => rfl
  | none =>
    have : req.any (moduleHasFiles (some (clearEmptyIgnores cfg)))
        = req.any (moduleHasFiles (some cfg)) :=
      congrArg (List.any req) (funext (fun m => moduleHasFiles_clear cfg m))
    rw [this]

/-- The copy plan is unchanged when present-but-empty `ignore` arrays
are dropped: no ignore filtering happens in either case. -/
theorem copyToTarget_clear (cfg : BoilItConfig) (tree : List FSEntry)
    (tgt : List Char) (req : List String) :
    copyToTarget (some (clearEmptyIgnores cfg)) tree tgt req
      = copyToTarget (some cfg) tree tgt req := by
  unfold copyToTarget
  rw [defaultStart_clear, defaultIgnoreOf_clear, fallbackPlan_clear]
  have hstep : moduleStep (some (clearEmptyIgnores cfg)) tree tgt
      (defaultIgnoreOf (some cfg))
      = moduleStep (some cfg) tree tgt (defaultIgnoreOf (some cfg)) :=
    funext (fun st => funext (fun m => moduleStep_clear cfg tree tgt _ st m))
  rw [hstep]

/-- C10: a present-but-empty `refs`, `files` or `dependencies` array is
rejected with its distinct error (in source order, after the dependency
block), the three errors are pairwise distinct, while `ignore` arrays
are never inspected by validation: dropping present-but-empty `ignore`
arrays at module and default level changes neither the validation
verdict nor the copy plan. -/
theorem C10_empty_arrays_distinct_ignore_neutral (cfg : BoilItConfig)
    (mods : List (String × Module)) (n : String) (m : Module)
    (avail : List String) (tree : List FSEntry) (tgt : List Char)
    (req : List String)
    (hdep : checkDepBlock mods n m avail = .ok ()) :
    (m.refs = some [] →
      validateModule mods n m avail = .error (.emptyRefs n)) ∧
    (m.refs ≠ some [] → m.files = some [] →
      validateModule mods n m avail = .error (.emptyFiles n)) ∧
    (m.refs ≠ some [] → m.files ≠ some [] → m.dependencies = some [] →
      validateModule mods n m avail = .error (.emptyDependencies n)) ∧
    ((CfgError.emptyRefs n ≠ .emptyFiles n) ∧
      (CfgError.emptyRefs n ≠ .emptyDependencies n) ∧
      (CfgError.emptyFiles n ≠ .emptyDependencies n)) ∧
    validateConfig (clearEmptyIgnores cfg) = validateConfig cfg ∧
    copyToTarget (some (clearEmptyIgnores cfg)) tree tgt req
      = copyToTarget (some cfg) tree tgt req := by
  have hE : validateModule mods n m avail = checkEmptyArrays n m := by
    unfold validateModule
    rw [hdep]
  refine ⟨?_, ?_, ?_, ⟨by simp, by simp, by simp⟩,
    validateConfig_clear cfg, copyToTarget_clear cfg tree tgt req⟩
  · intro hr
    rw [hE]
    unfold checkEmptyArrays
    rw [hr]
  · intro hr hf
    rw [hE]
    unfold checkEmptyArrays
    rw [hf]
    cases hrefs : m.refs with
    | none => rfl
    | some l =>
      cases l with
      | nil => exact absurd hrefs hr
      | cons r rs => rfl
  · intro hr hf hd
    rw [hE]
    unfold checkEmptyArrays
    rw [hd]
    cases hrefs : m.refs with
    | none =>
      cases hfiles : m.files with
      | none => rfl
      | some l =>
        cases l with
        | nil => exact absurd hfiles hf
        | cons r rs => rfl
    | some l =>
      cases l with
      | nil => exact absurd hrefs hr
      | cons r rs =>
        cases hfiles : m.files with
        | none => rfl
        | some l2 =>
          cases l2 with
          | nil => exact absurd hfiles hf
          | cons r2 rs2 => rfl
/-- Concrete workspace for the copy-everything witness: two markdown
files, a subdirectory, and a version-control directory. -/
def c6Tree : List FSEntry :=
  [.file (("a.md").toList),
   .dir (("docs").toList) [.file (("b.md").toList)],
   .dir ((".git").toList) [.file (("HEAD").toList)]]

/-- Concrete configuration without include patterns. -/
def c6Cfg : BoilItConfig :=
  { name := "x",
    modules := [("m", { refs := some ["r"] })],
    defaultCfg := none }

/-- Witness for C6 at a concrete workspace and configuration. -/
theorem C6_no_includes_copies_everything_witness :
    defaultFilesOf (some c6Cfg) = none ∧
    (walkAll c6Tree).Nodup ∧
    copyToTarget (some c6Cfg) c6Tree (("T").toList) ["m"]
      = (walkAll c6Tree).map
          (fun rel => ⟨rel, joinP (("T").toList) rel⟩) := by
  refine ⟨by decide, by decide, ?_⟩
  exact (C6_no_includes_copies_everything (some c6Cfg) c6Tree (("T").toList)
    ["m"] (by decide)
    (fun m hm md hl => by
      have h0 : (some c6Cfg).bind (fun c => lookupMod c.modules m)
          = some ({ refs := some ["r"] } : Module) := by
        simp only [List.mem_singleton] at hm
        subst hm
        rfl
      rw [h0] at hl
      injection hl with h
      rw [← h])
    (by decide) (by decide)).2.2 (by decide)

/-- Concrete module with a present-but-empty `refs` array and an empty
`ignore` array. -/
def c10m : Module := { refs := some [], ignore := some [] }

/-- Concrete configuration with empty `ignore` arrays at module and
default level. -/
def c10cfg : BoilItConfig :=
  { name := "x",
    modules := [("m", { refs := some ["r"], ignore := some [] })],
    defaultCfg := some { origin := "o", ignore := some [] } }

/-- Concrete workspace for the ignore-neutrality witness. -/
def c10tree : List FSEntry :=
  [.file (("a.md").toList), .file (("b.txt").toList)]

/-- Witness for C10 at concrete values: the empty-refs error fires, the
empty ignore arrays change nothing, and the configuration carrying them
passes validation. -/
theorem C10_empty_arrays_distinct_ignore_neutral_witness :
    checkDepBlock [] "m" c10m [] = .ok () ∧
    validateModule [] "m" c10m [] = .error (.emptyRefs "m") ∧
    validateConfig (clearEmptyIgnores c10cfg) = validateConfig c10cfg ∧
    copyToTarget (some (clearEmptyIgnores c10cfg)) c10tree (("T").toList) ["m"]
      = copyToTarget (some c10cfg) c10tree (("T").toList) ["m"] ∧
    validateConfig c10cfg = .ok () := by
  have h := C10_empty_arrays_distinct_ignore_neutral c10cfg [] "m" c10m []
    c10tree (("T").toList) ["m"] rfl
  exact ⟨rfl, h.1 rfl, h.2.2.2.2.1, h.2.2.2.2.2, rfl⟩

/-! ### The reference-application pipeline and the conflict sub-machine
(claims C1, C2 and C8) -/

/-- Result of one git `cherry-pick` (or `cherry-pick --continue`)
invocation: success, a content conflict (exit code 1), or any other
failure with its exit code. -/
inductive CPRes
  | ok
  | conflict
  | fatal (code : Nat)
deriving DecidableEq

/-- One operator decision at the conflict prompt. -/
inductive Decision
  | cont
  | cancel
deriving DecidableEq

/-- External calls issued by the pipeline, recorded in order. -/
inductive GitCall
  | fetchAll
  | fetchRef (ref : String)
  | revParse
  | mergeBase
  | revListC (ref : String)
  | cherryPick (ref : String)
  | cherryAbort
  | cherryContinue
  | promptChoice
deriving DecidableEq

/-- Pipeline state: the scripted operator decisions not yet consumed,
the number of continuation attempts made, and the call trace. -/
structure PipeSt where
  decs : List Decision
  contN : Nat
  tr : List GitCall
deriving DecidableEq

/-- Scripted environment for the external git service: outcome of each
call kind (`none` is success for plain commands; `revListRes` yields
the expanded revision list; `cherryRes` the outcome of the first
application of a revision; `contRes k` the outcome of the k-th
continuation attempt of the run). -/
structure GitEnv where
  fetchAllRes : Option Nat
  fetchRefRes : String → Option Nat
  revParseRes : Option Nat
  mergeBaseRes : Option Nat
  revListRes : String → Except Nat (List String)
  cherryRes : String → CPRes
  contRes : Nat → CPRes

/-- Conditions propagating out of the pipeline: the distinguished
cancellation (`OperationCancelledError`, carrying the revision), or a
process failure with its exit code. -/
inductive RunErr
  | cancelled (ref : String)
  | execa (code : Nat)
deriving DecidableEq

/-- Outcome of a pipeline fragment: normal return, a propagating
condition, or blocked at the prompt awaiting an operator decision that
the script does not provide. -/
inductive Out
  | done (s : PipeSt)
  | err (e : RunErr) (s : PipeSt)
  | blocked (s : PipeSt)
deriving DecidableEq

/-- Embedding of the `while (true)` loop of `handleMergeConflict`
(`src/boilit.ts` lines 495-537): prompt; on cancel run
`cherry-pick --abort` and raise the distinguished cancellation; on
continue run `cherry-pick --continue` and stop on success, re-enter the
loop on a content conflict, and raise any other failure.  Structural
fuel; one unit per loop iteration. -/
def hmcGo (env : GitEnv) (ref : String) : Nat → PipeSt → Out
  | 0, s => .blocked s
  | fuel + 1, s =>
    let s1 : PipeSt := { s with tr := s.tr ++ [.promptChoice] }
    match s.decs with
    | [] => .blocked s1
    | d :: rest =>
      let s2 : PipeSt := { s1 with decs := rest }
      match d with
      | .cancel =>
        .err (.cancelled ref) { s2 with tr := s2.tr ++ [.cherryAbort] }
      | .cont =>
        let s3 : PipeSt :=
          { s2 with tr := s2.tr ++ [.cherryContinue], contN := s2.contN + 1 }
        match env.contRes s2.contN with
        | .ok => .done s3
        | .conflict => hmcGo env ref fuel s3
        | .fatal c => .err (.execa c) s3

/-- Embedding of `cherryPickWithConflictHandling` (`src/boilit.ts`
lines 479-493): exit code 1 enters the conflict sub-machine, any other
failure is rethrown. -/
def cherryPickWithConflictHandling (env : GitEnv) (fuel : Nat)
    (ref : String) (s : PipeSt) : Out :=
  let s1 : PipeSt := { s with tr := s.tr ++ [.cherryPick ref] }
  match env.cherryRes ref with
  | .ok => .done s1
  | .conflict => hmcGo env ref fuel s1
  | .fatal c => .err (.execa c) s1

/-- The `for (const sha of shas)` loop of `prepareRepoForModule`
(`src/boilit.ts` lines 466-468). -/
def cherryLoop (env : GitEnv) (fuel : Nat) :
    List String → PipeSt → Out
  | [], s => .done s
  | sha :: rest, s =>
    match cherryPickWithConflictHandling env fuel sha s with
    | .done s2 => cherryLoop env fuel rest s2
    | .err e s2 => .err e s2
    | .blocked s2 => .blocked s2

/-- The `try` block of one ref iteration of `prepareRepoForModule`
(`src/boilit.ts` lines 437-471): fetch the ref, resolve the current
head, the merge base, and the revision range; when the expansion is
non-empty apply every revision and `continue` (the `true` outcome);
when it is empty fall through (the `false` outcome); any raised
condition leaves the block. -/
def tryExpand (env : GitEnv) (fuel : Nat) (ref : String) (s : PipeSt) :
    Out × Bool :=
  let s1 : PipeSt := { s with tr := s.tr ++ [.fetchRef ref] }
  match env.fetchRefRes ref with
  | some c => (.err (.execa c) s1, false)
  | none =>
    let s2 : PipeSt := { s1 with tr := s1.tr ++ [.revParse] }
    match env.revParseRes with
    | some c => (.err (.execa c) s2, false)
    | none =>
      let s3 : PipeSt := { s2 with tr := s2.tr ++ [.mergeBase] }
      match env.mergeBaseRes with
      | some c => (.err (.execa c) s3, false)
      | none =>
        let s4 : PipeSt := { s3 with tr := s3.tr ++ [.revListC ref] }
        match env.revListRes ref with
        | .error c => (.err (.execa c) s4, false)
        | .ok shas =>
          if shas.length > 0 then (cherryLoop env fuel shas s4, true)
          else (.done s4, false)

/-- The fallback of one ref iteration (`src/boilit.ts` lines 473-475):
fetch the ref again and apply the fetched tip directly.  This code is
outside the `try`, so its failures propagate. -/
def fallbackApply (env : GitEnv) (fuel : Nat) (ref : String)
    (s : PipeSt) : Out :=
  let s1 : PipeSt := { s with tr := s.tr ++ [.fetchRef ref] }
  match env.fetchRefRes ref with
  | some c => .err (.execa c) s1
  | none => cherryPickWithConflictHandling env fuel ("FETCH_HEAD") s1

/-- One ref iteration: the `try` block under the bare `catch {}`
(`src/boilit.ts` line 472), which discards every raised condition and
falls through to the fallback; only a completed non-empty expansion
skips the fallback via `continue`. -/
def applyRef (env : GitEnv) (fuel : Nat) (ref : String) (s : PipeSt) :
    Out :=
  match tryExpand env fuel ref s with
  | (.done s2, true) => .done s2
  | (.done s2, false) => fallbackApply env fuel ref s2
  | (.err _ s2, _) => fallbackApply env fuel ref s2
  | (.blocked s2, _) => .blocked s2

/-- The `for (const ref of module.refs)` loop. -/
def refsLoop (env : GitEnv) (fuel : Nat) :
    List String → PipeSt → Out
  | [], s => .done s
  | ref :: rest, s =>
    match applyRef env fuel ref s with
    | .done s2 => refsLoop env fuel rest s2
    | .err e s2 => .err e s2
    | .blocked s2 => .blocked s2

/-- Embedding of `prepareRepoForModule` (`src/boilit.ts` lines
429-477): return early without refs, fetch all remotes (failures here
propagate), then the per-ref loop. -/
def prepareRepoForModule (env : GitEnv) (fuel : Nat)
    (refs : Option (List String)) (s : PipeSt) : Out :=
  match refs with
  | none => .done s
  | some rs =>
    if rs.length = 0 then .done s
    else
      let s1 : PipeSt := { s with tr := s.tr ++ [.fetchAll] }
      match env.fetchAllRes with
      | some c => .err (.execa c) s1
      | none => refsLoop env fuel rs s1

/-- `applyModuleRefs` (`src/boilit.ts` lines 187-208) catches only to
report and rethrows unchanged, and `resolveAndApplyModules` and `use`
(`src/boilit.ts` lines 14-49, 51-80) likewise rethrow every condition,
so the outcome reaching the command layer is the pipeline outcome. -/
def applyModuleRefs (env : GitEnv) (fuel : Nat)
    (refs : Option (List String)) (s : PipeSt) : Out :=
  prepareRepoForModule env fuel refs s

/-- Embedding of `handleUse` (`src/cli.ts` lines 11-26): exit status 0
on success, 0 on the distinguished cancellation, 1 on any other
condition; no status while blocked at the prompt. -/
def handleUse (o : Out) : Option Nat :=
  match o with
  | .done _ => some 0
  | .err (.cancelled _) _ => some 0
  | .err (.execa _) _ => some 1
  | .blocked _ => none
/-- The concrete environment of the swallowed-cancellation scenario:
the expansion of ref `r` yields one revision whose application
conflicts; applying the fetched tip directly succeeds. -/
def c1env : GitEnv :=
  { fetchAllRes := none,
    fetchRefRes := fun _ => none,
    revParseRes := none,
    mergeBaseRes := none,
    revListRes := fun _ => .ok ["sha1"],
    cherryRes := fun r => if r = "sha1" then .conflict else .ok,
    contRes := fun _ => .conflict }

/-- As `c1env`, but the expanded revision fails with a non-conflict
exit code. -/
def c2env : GitEnv :=
  { c1env with cherryRes := fun r => if r = "sha1" then .fatal 128 else .ok }

/-- As `c1env`, but the range expansion itself fails, the legitimate
fallback situation. -/
def c2okenv : GitEnv :=
  { c1env with revListRes := fun _ => .error 128, cherryRes := fun _ => .ok }

/-- One prompt step on cancel: abort, then the distinguished
cancellation. -/
theorem hmcGo_step_cancel (env : GitEnv) (ref : String) (fuel : Nat)
    (s : PipeSt) (rest : List Decision) (h : s.decs = .cancel :: rest) :
    hmcGo env ref (fuel + 1) s
      = .err (.cancelled ref)
          { decs := rest, contN := s.contN,
            tr := s.tr ++ ([.promptChoice, .cherryAbort]) } := by
  obtain ⟨ds, cn, tr⟩ := s
  replace h : ds = .cancel :: rest := h
  subst h
  simp [hmcGo]

/-- One prompt step on continue when the continuation succeeds. -/
theorem hmcGo_step_cont_ok (env : GitEnv) (ref : String) (fuel : Nat)
    (s : PipeSt) (rest : List Decision) (h : s.decs = .cont :: rest)
    (hr : env.contRes s.contN = .ok) :
    hmcGo env ref (fuel + 1) s
      = .done
          { decs := rest, contN := s.contN + 1,
            tr := s.tr ++ ([.promptChoice, .cherryContinue]) } := by
  obtain ⟨ds, cn, tr⟩ := s
  replace h : ds = .cont :: rest := h
  subst h
  replace hr : env.contRes cn = .ok := hr
  simp [hmcGo, hr]

/-- One prompt step on continue when the continuation conflicts again:
the loop re-enters. -/
theorem hmcGo_step_cont_conflict (env : GitEnv) (ref : String)
    (fuel : Nat) (s : PipeSt) (rest : List Decision)
    (h : s.decs = .cont :: rest)
    (hr : env.contRes s.contN = .conflict) :
    hmcGo env ref (fuel + 1) s
      = hmcGo env ref fuel
          { decs := rest, contN := s.contN + 1,
            tr := s.tr ++ ([.promptChoice, .cherryContinue]) } := by
  obtain ⟨ds, cn, tr⟩ := s
  replace h : ds = .cont :: rest := h
  subst h
  replace hr : env.contRes cn = .conflict := hr
  simp [hmcGo, hr]

/-- One prompt step on continue when the continuation fails with a
non-conflict status: the failure propagates without re-prompting. -/
theorem hmcGo_step_cont_fatal (env : GitEnv) (ref : String) (fuel : Nat)
    (s : PipeSt) (rest : List Decision) (c : Nat)
    (h : s.decs = .cont :: rest)
    (hr : env.contRes s.contN = .fatal c) :
    hmcGo env ref (fuel + 1) s
      = .err (.execa c)
          { decs := rest, contN := s.contN + 1,
            tr := s.tr ++ ([.promptChoice, .cherryContinue]) } := by
  obtain ⟨ds, cn, tr⟩ := s
  replace h : ds = .cont :: rest := h
  subst h
  replace hr : env.contRes cn = .fatal c := hr
  simp [hmcGo, hr]

/-- With no scripted decision left, the sub-machine is blocked at the
freshly shown prompt. -/
theorem hmcGo_step_blocked (env : GitEnv) (ref : String) (fuel : Nat)
    (s : PipeSt) (h : s.decs = []) :
    hmcGo env ref (fuel + 1) s
      = .blocked { s with tr := s.tr ++ [.promptChoice] } := by
  obtain ⟨ds, cn, tr⟩ := s
  replace h : ds = [] := h
  subst h
  simp [hmcGo]

/-- Consuming a block of continue decisions whose continuations all
conflict: one loop iteration (and one fuel unit) per decision. -/
theorem hmcGo_consume (env : GitEnv) (ref : String) :
    ∀ (m : Nat) (fuel : Nat) (s : PipeSt) (ds2 : List Decision),
      s.decs = List.replicate m .cont ++ ds2 →
      (∀ k, s.contN ≤ k → k < s.contN + m → env.contRes k = .conflict) →
      hmcGo env ref (m + (fuel + 1)) s
        = hmcGo env ref (fuel + 1)
            { decs := ds2, contN := s.contN + m,
              tr := s.tr ++ (List.replicate m
                ([GitCall.promptChoice, GitCall.cherryContinue])).flatten } := by
  intro m
  induction m with
  | zero =>
    intro fuel s ds2 h hconf
    obtain ⟨ds, cn, tr⟩ := s
    replace h : ds = ds2 := by simpa using h
    subst h
    simp
  | succ m ih =>
    intro fuel s ds2 h hconf
    obtain ⟨ds, cn, tr⟩ := s
    replace h : ds = .cont :: (List.replicate m .cont ++ ds2) := by
      simpa [List.replicate_succ] using h
    subst h
    replace hconf : ∀ k, cn ≤ k → k < cn + (m + 1) →
        env.contRes k = .conflict := hconf
    have harith : m + 1 + (fuel + 1) = (m + (fuel + 1)) + 1 := by omega
    rw [harith,
      hmcGo_step_cont_conflict env ref (m + (fuel + 1)) _ _ rfl
        (hconf cn (by omega) (by omega))]
    have hconf3 : ∀ k, cn + 1 ≤ k → k < (cn + 1) + m →
        env.contRes k = .conflict :=
      fun k h1 h2 => hconf k (by omega) (by omega)
    rw [ih fuel _ ds2 rfl hconf3]
    congr 1
    simp only [PipeSt.mk.injEq]
    refine ⟨trivial, by omega, ?_⟩
    simp [List.replicate_succ, List.append_assoc]

/-- Occurrence counting across a replicated block. -/
theorem count_flatten_replicate (x : GitCall) (l : List GitCall)
    (m : Nat) :
    ((List.replicate m l).flatten).count x = m * l.count x := by
  induction m with
  | zero => simp
  | succ m ih =>
    simp [List.replicate_succ, List.count_append, ih, Nat.succ_mul]
    omega
/-- C1: on cancel the conflict sub-machine runs `cherry-pick --abort`
and raises the distinguished cancellation, and the command layer maps
cancellation to exit status 0 and any generic condition to exit status
1; but the claimed propagation out of the pipeline fails: cancelling
during the application of an expanded revision is discarded by the bare
per-ref catch, the fallback applies the fetched tip, and the run
finishes as a success although the abort ran and the decision was
consumed. -/
theorem C1_cancel_aborts_but_swallowed_in_pipeline :
    (∀ (env : GitEnv) (ref : String) (fuel : Nat) (s : PipeSt)
        (rest : List Decision), s.decs = .cancel :: rest →
      hmcGo env ref (fuel + 1) s
        = .err (.cancelled ref)
            { decs := rest, contN := s.contN,
              tr := s.tr ++ ([.promptChoice, .cherryAbort]) }) ∧
    (∀ (ref : String) (s : PipeSt), handleUse (.err (.cancelled ref) s)
      = some 0) ∧
    (∀ (c : Nat) (s : PipeSt), handleUse (.err (.execa c) s) = some 1) ∧
    (∀ s : PipeSt, handleUse (.done s) = some 0) ∧
    prepareRepoForModule c1env 4 (some ["r"]) ⟨[.cancel], 0, []⟩
      = .done ⟨[], 0,
          [.fetchAll, .fetchRef ("r"), .revParse, .mergeBase,
           .revListC ("r"), .cherryPick ("sha1"), .promptChoice,
           .cherryAbort, .fetchRef ("r"), .cherryPick ("FETCH_HEAD")]⟩ := by
  refine ⟨?_, fun _ _ => rfl, fun _ _ => rfl, fun _ => rfl, by decide⟩
  intro env ref fuel s rest h
  exact hmcGo_step_cancel env ref fuel s rest h

/-- Witness for C1 at a concrete cancel decision. -/
theorem C1_cancel_aborts_but_swallowed_in_pipeline_witness :
    (⟨[Decision.cancel], 0, []⟩ : PipeSt).decs = .cancel :: [] ∧
    hmcGo c1env ("x") 1 ⟨[.cancel], 0, []⟩
      = .err (.cancelled ("x"))
          ⟨[], 0, [.promptChoice, .cherryAbort]⟩ := by
  constructor
  · rfl
  · have h := C1_cancel_aborts_but_swallowed_in_pipeline.1 c1env ("x") 0
      ⟨[.cancel], 0, []⟩ [] rfl
    simpa using h

/-- C2: a non-conflict failure of one revision application is rethrown
by the conflict wrapper, and the only legitimate fallback fires when
the range expansion itself fails; but the claimed propagation fails
beyond that: the bare per-ref catch also discards a fatal non-conflict
failure of an expanded revision application (and would discard the
cancellation condition alike), applies the fallback tip, and the run
finishes as a success with exit status 0. -/
theorem C2_fatal_failure_swallowed_in_pipeline :
    (∀ (env : GitEnv) (fuel : Nat) (ref : String) (s : PipeSt) (c : Nat),
      env.cherryRes ref = .fatal c →
      cherryPickWithConflictHandling env fuel ref s
        = .err (.execa c) { s with tr := s.tr ++ [.cherryPick ref] }) ∧
    prepareRepoForModule c2okenv 4 (some ["r"]) ⟨[], 0, []⟩
      = .done ⟨[], 0,
          [.fetchAll, .fetchRef ("r"), .revParse, .mergeBase,
           .revListC ("r"), .fetchRef ("r"), .cherryPick ("FETCH_HEAD")]⟩ ∧
    c2env.cherryRes ("sha1") = .fatal 128 ∧
    prepareRepoForModule c2env 4 (some ["r"]) ⟨[], 0, []⟩
      = .done ⟨[], 0,
          [.fetchAll, .fetchRef ("r"), .revParse, .mergeBase,
           .revListC ("r"), .cherryPick ("sha1"), .fetchRef ("r"),
           .cherryPick ("FETCH_HEAD")]⟩ ∧
    handleUse (prepareRepoForModule c2env 4 (some ["r"]) ⟨[], 0, []⟩)
      = some 0 := by
  refine ⟨?_, by decide, by decide, by decide, by decide⟩
  intro env fuel ref s c h
  unfold cherryPickWithConflictHandling
  rw [h]

/-- Witness for C2 at a concrete fatal revision application. -/
theorem C2_fatal_failure_swallowed_in_pipeline_witness :
    c2env.cherryRes ("sha1") = .fatal 128 ∧
    cherryPickWithConflictHandling c2env 1 ("sha1") ⟨[], 0, []⟩
      = .err (.execa 128) ⟨[], 0, [.cherryPick ("sha1")]⟩ := by
  constructor
  · decide
  · have h := C2_fatal_failure_swallowed_in_pipeline.1 c2env 1 ("sha1")
      ⟨[], 0, []⟩ 128 (by decide)
    simpa using h

/-- C8: in the conflict sub-machine, each continue choice invokes the
continuation exactly once; while continuations keep conflicting the two
choices are re-presented, one prompt per iteration, with no bound;
the loop ends only on a cancel decision or on a non-conflict
continuation outcome. -/
theorem C8_conflict_loop_one_continuation_per_choice_unbounded
    (env : GitEnv) (ref : String)
    (hconf : ∀ k, env.contRes k = .conflict) (n : Nat) :
    (∃ s2, hmcGo env ref (n + 2) ⟨List.replicate n .cont, 0, []⟩
        = .blocked s2 ∧ s2.decs = [] ∧ s2.contN = n ∧
      s2.tr.count .cherryContinue = n ∧
      s2.tr.count .promptChoice = n + 1 ∧
      s2.tr.count .cherryAbort = 0) ∧
    (∃ s3, hmcGo env ref (n + 2)
          ⟨List.replicate n .cont ++ [.cancel], 0, []⟩
        = .err (.cancelled ref) s3 ∧ s3.contN = n ∧
      s3.tr.count .cherryContinue = n ∧
      s3.tr.count .promptChoice = n + 1 ∧
      s3.tr.count .cherryAbort = 1) ∧
    (∀ env2 : GitEnv, (∀ k, k < n → env2.contRes k = .conflict) →
      env2.contRes n = .ok →
      ∃ s4, hmcGo env2 ref (n + 2)
          ⟨List.replicate (n + 1) .cont, 0, []⟩
        = .done s4 ∧ s4.contN = n + 1 ∧
      s4.tr.count .cherryContinue = n + 1 ∧
      s4.tr.count .promptChoice = n + 1 ∧
      s4.tr.count .cherryAbort = 0) := by
  refine ⟨?_, ?_, ?_⟩
  · rw [show n + 2 = n + (1 + 1) from rfl,
      hmcGo_consume env ref n 1 ⟨List.replicate n .cont, 0, []⟩ []
        (by simp) (fun k h1 h2 => hconf k),
      hmcGo_step_blocked _ _ _ _ rfl]
    refine ⟨_, rfl, rfl, by simp, ?_, ?_, ?_⟩ <;>
      simp [List.count_append, count_flatten_replicate, List.count_cons]
  · have hcons := hmcGo_consume env ref n 1
      ⟨List.replicate n Decision.cont ++ [Decision.cancel], 0, []⟩
      [Decision.cancel] (by simp) (fun k h1 h2 => hconf k)
    rw [show n + 2 = n + (1 + 1) from rfl, hcons,
      hmcGo_step_cancel _ _ _ _ [] rfl]
    refine ⟨_, rfl, by simp, ?_, ?_, ?_⟩ <;>
      simp [List.count_append, count_flatten_replicate, List.count_cons]
  · intro env2 hc2 hok
    rw [show n + 2 = n + (1 + 1) from rfl,
      hmcGo_consume env2 ref n 1 ⟨List.replicate (n + 1) .cont, 0, []⟩
        [.cont] (by simp [List.replicate_succ']) (fun k h1 h2 => hc2 k (by simpa using h2)),
      hmcGo_step_cont_ok _ _ _ _ [] rfl (by simpa using hok)]
    refine ⟨_, rfl, by simp, ?_, ?_, ?_⟩ <;>
      simp [List.count_append, count_flatten_replicate, List.count_cons]

/-- Witness for C8 at one scripted continue. -/
theorem C8_conflict_loop_one_continuation_per_choice_unbounded_witness :
    (∀ k, c1env.contRes k = CPRes.conflict) ∧
    (∃ s2, hmcGo c1env ("x") 3 ⟨List.replicate 1 .cont, 0, []⟩
        = .blocked s2 ∧ s2.decs = [] ∧ s2.contN = 1 ∧
      s2.tr.count .cherryContinue = 1 ∧
      s2.tr.count .promptChoice = 2 ∧
      s2.tr.count .cherryAbort = 0) :=
  ⟨fun _ => rfl,
    (C8_conflict_loop_one_continuation_per_choice_unbounded c1env ("x")
      (fun _ => rfl) 1).1⟩

end BoilIt
